import Mathlib

/-!
Verification of the PEBBL interpreter runtime.

This development shallowly embeds the core runtime of the PEBBL scripting
language (NaN-boxed value representation, environments, bytecode compiler
and virtual machine fragments, the tree-walking evaluator's for-in loop,
and the mark-and-sweep garbage collector) and proves or refutes the
specification's claims about it.

Machine integers are modelled as `Nat`/`Int` with explicit masking;
IEEE-754 doubles are represented by their 64-bit bit patterns where only
bit-level behaviour matters (`object.cpp`), and by exact rationals where
only numeric classification matters (the VM's arithmetic handlers).
-/

/-! ## Section 1: NaN-boxed value representation (object.hpp / object.cpp)

A `PEBBLObject` is a 64-bit word `bits`.  We model the word as a `Nat`
(values produced by the constructors are below `2^64`).  `make_double`
stores the IEEE-754 bit pattern of its argument verbatim (`memcpy`), so
here a double argument is represented by its 64-bit pattern. -/

namespace NanBox

/-- IEEE 754 exponent mask (bits 63-52), `EXP_MASK` in object.hpp. -/
def EXP_MASK : Nat := 0x7FF0000000000000

/-- Quiet NaN mask (bit 51), `QNAN_MASK` in object.hpp. -/
def QNAN_MASK : Nat := 0x0008000000000000

/-- Base pattern for boxed values, `BOXED_BASE = EXP_MASK | QNAN_MASK`. -/
def BOXED_BASE : Nat := EXP_MASK ||| QNAN_MASK

/-- Mask for extracting the type tag (bits 50-48), `TAG_MASK`. -/
def TAG_MASK : Nat := 0x0007000000000000

/-- Bit shift amount for the type tag, `TAG_SHIFT`. -/
def TAG_SHIFT : Nat := 48

/-- Mask for extracting payload data (bits 47-0), `PAYLOAD_MASK`. -/
def PAYLOAD_MASK : Nat := 0x0000FFFFFFFFFFFF

/-- Type tags for boxed values, `PEBBLObject::Tag` in object.hpp. -/
inductive Tag where
  | GC_PTR
  | INT32
  | BOOL
  | NIL
  | UNDEFINED
deriving DecidableEq

/-- The numeric value of each enumerator (`GC_PTR = 1`, then consecutive). -/
def Tag.val : Tag → Nat
  | .GC_PTR => 1
  | .INT32 => 2
  | .BOOL => 3
  | .NIL => 4
  | .UNDEFINED => 5

/-- `static_cast<uint64_t>(v)` for a 32-bit signed `v`: reduction of the
integer modulo `2^64` (sign extension of the two's-complement pattern). -/
def u64_of_int32 (v : Int) : Nat := (v % (2 ^ 64 : Int)).toNat

/-- `PEBBLObject::make_double`: `memcpy` of the double's bit pattern into
`bits`.  With doubles represented by their bit patterns this is the
identity on the 64-bit word. -/
def make_double (dbits : Nat) : Nat := dbits

/-- `PEBBLObject::make_int32` from object.cpp:
`BOXED_BASE | (Tag::INT32 << TAG_SHIFT) | (uint64_t(value) & PAYLOAD_MASK)`. -/
def make_int32 (v : Int) : Nat :=
  BOXED_BASE ||| (Tag.INT32.val <<< TAG_SHIFT) ||| (u64_of_int32 v &&& PAYLOAD_MASK)

/-- `PEBBLObject::make_bool` from object.cpp. -/
def make_bool (b : Bool) : Nat :=
  BOXED_BASE ||| (Tag.BOOL.val <<< TAG_SHIFT) ||| (if b then 1 else 0)

/-- `PEBBLObject::make_null` from object.cpp. -/
def make_null : Nat :=
  BOXED_BASE ||| (Tag.NIL.val <<< TAG_SHIFT)

/-- `PEBBLObject::make_undefined` from object.cpp. -/
def make_undefined : Nat :=
  BOXED_BASE ||| (Tag.UNDEFINED.val <<< TAG_SHIFT)

/-- `PEBBLObject::make_gc_ptr` from object.cpp: the pointer value is
masked to the low 48 bits. -/
def make_gc_ptr (ptr : Nat) : Nat :=
  BOXED_BASE ||| (Tag.GC_PTR.val <<< TAG_SHIFT) ||| (ptr &&& PAYLOAD_MASK)

/-- `PEBBLObject::is_double`: `(bits & EXP_MASK) != EXP_MASK`. -/
def is_double (bits : Nat) : Bool := (bits &&& EXP_MASK) != EXP_MASK

/-- `PEBBLObject::is_boxed`: `(bits & BOXED_BASE) == BOXED_BASE`. -/
def is_boxed (bits : Nat) : Bool := (bits &&& BOXED_BASE) == BOXED_BASE

/-- `PEBBLObject::get_tag`: `(bits & TAG_MASK) >> TAG_SHIFT`. -/
def get_tag (bits : Nat) : Nat := (bits &&& TAG_MASK) >>> TAG_SHIFT

/-- `PEBBLObject::is_int32`. -/
def is_int32 (bits : Nat) : Bool := is_boxed bits && (get_tag bits == Tag.INT32.val)

/-- `PEBBLObject::is_bool`. -/
def is_bool (bits : Nat) : Bool := is_boxed bits && (get_tag bits == Tag.BOOL.val)

/-- `PEBBLObject::is_null`. -/
def is_null (bits : Nat) : Bool := is_boxed bits && (get_tag bits == Tag.NIL.val)

/-- `PEBBLObject::is_undefined`. -/
def is_undefined (bits : Nat) : Bool := is_boxed bits && (get_tag bits == Tag.UNDEFINED.val)

/-- `PEBBLObject::is_gc_ptr`. -/
def is_gc_ptr (bits : Nat) : Bool := is_boxed bits && (get_tag bits == Tag.GC_PTR.val)

/-- `PEBBLObject::as_int32`: `static_cast<int32_t>(bits & PAYLOAD_MASK)` —
truncation to the low 32 bits interpreted as a two's-complement signed
integer. -/
def as_int32 (bits : Nat) : Int :=
  let w : Nat := (bits &&& PAYLOAD_MASK) % 2 ^ 32
  if w < 2 ^ 31 then (w : Int) else (w : Int) - 2 ^ 32

/-- Number of the six classification predicates that hold on a word. -/
def classifyCount (bits : Nat) : Nat :=
  (if is_double bits then 1 else 0) + (if is_int32 bits then 1 else 0) +
  (if is_bool bits then 1 else 0) + (if is_null bits then 1 else 0) +
  (if is_undefined bits then 1 else 0) + (if is_gc_ptr bits then 1 else 0)

/-! Bit-level helper lemmas used to evaluate the masks on packed words. -/

theorem testBit_two_pow_mul (s a j : Nat) :
    (2 ^ s * a).testBit j = if j < s then false else a.testBit (j - s) := by
  have h := Nat.testBit_mul_pow_two_add a (b := 0) (i := s)
    (Nat.pos_pow_of_pos s (by norm_num)) j
  simpa using h

theorem lor_high_low (k p s : Nat) (hp : p < 2 ^ s) :
    (2 ^ s * k) ||| p = 2 ^ s * k + p := by
  apply Nat.eq_of_testBit_eq
  intro j
  rw [Nat.testBit_lor, Nat.testBit_mul_pow_two_add _ hp, testBit_two_pow_mul]
  by_cases hj : j < s
  · simp [hj]
  · have hpj : p < 2 ^ j :=
      lt_of_lt_of_le hp (Nat.pow_le_pow_right (by norm_num) (Nat.le_of_not_lt hj))
    simp [hj, Nat.testBit_lt_two_pow hpj]

theorem land_high (H M p s : Nat) (hp : p < 2 ^ s) :
    (2 ^ s * H + p) &&& (2 ^ s * M) = 2 ^ s * (H &&& M) := by
  apply Nat.eq_of_testBit_eq
  intro j
  rw [Nat.testBit_land, Nat.testBit_mul_pow_two_add _ hp, testBit_two_pow_mul,
    testBit_two_pow_mul, Nat.testBit_land]
  by_cases hj : j < s
  · simp [hj]
  · simp [hj]

theorem land_of_superset (x a b : Nat) (hxa : x &&& a = a) (hba : b &&& a = b) :
    x &&& b = b := by
  apply Nat.eq_of_testBit_eq
  intro i
  have h1 := congrArg (fun n => n.testBit i) hxa
  have h2 := congrArg (fun n => n.testBit i) hba
  simp only [Nat.testBit_land] at h1 h2 ⊢
  cases hx : x.testBit i <;> cases ha : a.testBit i <;> cases hb : b.testBit i <;> simp_all

theorem two_pow_mul_shiftRight (s t : Nat) : (2 ^ s * t) >>> s = t := by
  rw [Nat.shiftRight_eq_div_pow,
    Nat.mul_div_cancel_left _ (Nat.pos_pow_of_pos s (by norm_num))]

theorem land_payload (x : Nat) : x &&& PAYLOAD_MASK = x % 2 ^ 48 := by
  have h : PAYLOAD_MASK = 2 ^ 48 - 1 := by norm_num [PAYLOAD_MASK]
  rw [h, Nat.and_pow_two_sub_one_eq_mod]

theorem bne_mul_cancel (c x y : Nat) (hc : 0 < c) : (c * x != c * y) = (x != y) := by
  rcases eq_or_ne x y with h | h
  · subst h; rw [bne_self_eq_false, bne_self_eq_false]
  · have h2 : c * x ≠ c * y := fun hc2 => h (Nat.eq_of_mul_eq_mul_left hc hc2)
    rw [Bool.eq_iff_iff, bne_iff_ne, bne_iff_ne]
    exact ⟨fun _ => h, fun _ => h2⟩

theorem beq_mul_cancel (c x y : Nat) (hc : 0 < c) : (c * x == c * y) = (x == y) := by
  rcases eq_or_ne x y with h | h
  · subst h; rw [beq_self_eq_true, beq_self_eq_true]
  · have h2 : c * x ≠ c * y := fun hc2 => h (Nat.eq_of_mul_eq_mul_left hc hc2)
    rw [Bool.eq_iff_iff, beq_iff_eq, beq_iff_eq]
    exact ⟨fun hc2 => absurd hc2 h2, fun hx => absurd hx h⟩

/-- Evaluation of `is_double` on a packed word `2^48 * H + p`. -/
theorem is_double_high (H p : Nat) (hp : p < 2 ^ 48) :
    is_double (2 ^ 48 * H + p) = (H &&& 32752 != 32752) := by
  unfold is_double
  rw [show EXP_MASK = 2 ^ 48 * 32752 by norm_num [EXP_MASK], land_high _ _ _ _ hp,
    bne_mul_cancel _ _ _ (by norm_num)]

/-- Evaluation of `is_boxed` on a packed word `2^48 * H + p`. -/
theorem is_boxed_high (H p : Nat) (hp : p < 2 ^ 48) :
    is_boxed (2 ^ 48 * H + p) = (H &&& 32760 == 32760) := by
  unfold is_boxed
  rw [show BOXED_BASE = 2 ^ 48 * 32760 by decide,
    land_high _ _ _ _ hp, beq_mul_cancel _ _ _ (by norm_num)]

/-- Evaluation of `get_tag` on a packed word `2^48 * H + p`. -/
theorem get_tag_high (H p : Nat) (hp : p < 2 ^ 48) :
    get_tag (2 ^ 48 * H + p) = H &&& 7 := by
  unfold get_tag TAG_SHIFT
  rw [show TAG_MASK = 2 ^ 48 * 7 by norm_num [TAG_MASK], land_high _ _ _ _ hp,
    two_pow_mul_shiftRight]

/-- When a word is not boxed, only `is_double` can contribute to the count. -/
theorem classifyCount_of_unboxed (bits : Nat) (hd : is_double bits = true)
    (hb : is_boxed bits = false) : classifyCount bits = 1 := by
  simp [classifyCount, is_int32, is_bool, is_null, is_undefined, is_gc_ptr, hd, hb]

/-- A word that is not a double, is boxed, and carries one of the five
valid tags satisfies exactly one classification predicate. -/
theorem classifyCount_of_boxed_tag (bits t : Nat) (hd : is_double bits = false)
    (hb : is_boxed bits = true) (ht : get_tag bits = t) (h1 : 1 ≤ t) (h5 : t ≤ 5) :
    classifyCount bits = 1 := by
  unfold classifyCount is_int32 is_bool is_null is_undefined is_gc_ptr
  rw [hd, hb, ht]
  simp only [Tag.val]
  interval_cases t <;> simp

/-- Every boxed constructor output packs as `2^48 * H + p` with its own `H`. -/
theorem classifyCount_packed (H p : Nat) (hp : p < 2 ^ 48)
    (hH : H = 32761 ∨ H = 32762 ∨ H = 32763 ∨ H = 32764 ∨ H = 32765) :
    classifyCount (2 ^ 48 * H + p) = 1 := by
  rcases hH with h | h | h | h | h
  · subst h
    exact classifyCount_of_boxed_tag _ 1 (by rw [is_double_high _ _ hp]; decide)
      (by rw [is_boxed_high _ _ hp]; decide) (by rw [get_tag_high _ _ hp]; decide) (by decide) (by decide)
  · subst h
    exact classifyCount_of_boxed_tag _ 2 (by rw [is_double_high _ _ hp]; decide)
      (by rw [is_boxed_high _ _ hp]; decide) (by rw [get_tag_high _ _ hp]; decide) (by decide) (by decide)
  · subst h
    exact classifyCount_of_boxed_tag _ 3 (by rw [is_double_high _ _ hp]; decide)
      (by rw [is_boxed_high _ _ hp]; decide) (by rw [get_tag_high _ _ hp]; decide) (by decide) (by decide)
  · subst h
    exact classifyCount_of_boxed_tag _ 4 (by rw [is_double_high _ _ hp]; decide)
      (by rw [is_boxed_high _ _ hp]; decide) (by rw [get_tag_high _ _ hp]; decide) (by decide) (by decide)
  · subst h
    exact classifyCount_of_boxed_tag _ 5 (by rw [is_double_high _ _ hp]; decide)
      (by rw [is_boxed_high _ _ hp]; decide) (by rw [get_tag_high _ _ hp]; decide) (by decide) (by decide)

/-- `make_int32` packs as high part 32762 (= `0x7FFA`) over the low 48 bits. -/
theorem make_int32_eq (v : Int) :
    make_int32 v = 2 ^ 48 * 32762 + u64_of_int32 v % 2 ^ 48 := by
  unfold make_int32
  rw [land_payload, show BOXED_BASE ||| Tag.INT32.val <<< TAG_SHIFT = 2 ^ 48 * 32762 by decide]
  exact lor_high_low _ _ _ (Nat.mod_lt _ (by norm_num))

/-- `make_bool` packs as high part 32763 over payload 0 or 1. -/
theorem make_bool_eq (b : Bool) :
    make_bool b = 2 ^ 48 * 32763 + (if b then 1 else 0) := by
  unfold make_bool
  rw [show BOXED_BASE ||| Tag.BOOL.val <<< TAG_SHIFT = 2 ^ 48 * 32763 by decide]
  exact lor_high_low _ _ _ (by cases b <;> norm_num)

/-- `make_null` is the fixed word with high part 32764. -/
theorem make_null_eq : make_null = 2 ^ 48 * 32764 + 0 := by decide

/-- `make_undefined` is the fixed word with high part 32765. -/
theorem make_undefined_eq : make_undefined = 2 ^ 48 * 32765 + 0 := by decide

/-- `make_gc_ptr` packs as high part 32761 over the low 48 pointer bits. -/
theorem make_gc_ptr_eq (ptr : Nat) :
    make_gc_ptr ptr = 2 ^ 48 * 32761 + ptr % 2 ^ 48 := by
  unfold make_gc_ptr
  rw [land_payload, show BOXED_BASE ||| Tag.GC_PTR.val <<< TAG_SHIFT = 2 ^ 48 * 32761 by decide]
  exact lor_high_low _ _ _ (Nat.mod_lt _ (by norm_num))

/-- C1 (counterexample): `make_double` applied to the canonical quiet NaN
(bit pattern `0x7FF8000000000000`: exponent all ones, quiet bit set,
remaining mantissa zero — a genuine NaN double) yields a word on which NONE
of the six classification predicates holds, refuting the claim that exactly
one of them holds on every constructor output including `make_double` of a
NaN. -/
theorem C1_nan_zero_classifications :
    is_double (make_double 0x7FF8000000000000) = false ∧
    is_int32 (make_double 0x7FF8000000000000) = false ∧
    is_bool (make_double 0x7FF8000000000000) = false ∧
    is_null (make_double 0x7FF8000000000000) = false ∧
    is_undefined (make_double 0x7FF8000000000000) = false ∧
    is_gc_ptr (make_double 0x7FF8000000000000) = false ∧
    classifyCount (make_double 0x7FF8000000000000) ≠ 1 := by
  refine ⟨by decide, by decide, by decide, by decide, by decide, by decide, by decide⟩

/-- C1 (amended): exactly one of the six classification predicates holds on
every word produced by `make_int32`, `make_bool`, `make_null`,
`make_undefined` and `make_gc_ptr`, and by `make_double` applied to a
double whose exponent field is not all ones (i.e. excluding NaNs and
infinities, whose patterns make `is_double` false). -/
theorem C1_exactly_one_classification (d : Nat) (v : Int) (b : Bool) (p : Nat)
    (hd : d &&& EXP_MASK ≠ EXP_MASK) :
    classifyCount (make_double d) = 1 ∧ classifyCount (make_int32 v) = 1 ∧
    classifyCount (make_bool b) = 1 ∧ classifyCount make_null = 1 ∧
    classifyCount make_undefined = 1 ∧ classifyCount (make_gc_ptr p) = 1 := by
  refine ⟨?_, ?_, ?_, ?_, ?_, ?_⟩
  · have hdd : is_double (make_double d) = true := by
      unfold make_double is_double
      exact bne_iff_ne.mpr hd
    have hbb : is_boxed (make_double d) = false := by
      unfold make_double is_boxed
      rw [beq_eq_false_iff_ne]
      intro hc
      exact hd (land_of_superset d BOXED_BASE EXP_MASK hc (by decide))
    exact classifyCount_of_unboxed _ hdd hbb
  · rw [make_int32_eq]
    exact classifyCount_packed _ _ (Nat.mod_lt _ (by norm_num)) (by tauto)
  · rw [make_bool_eq]
    exact classifyCount_packed _ _ (by cases b <;> norm_num) (by tauto)
  · rw [make_null_eq]
    exact classifyCount_packed _ _ (by norm_num) (by tauto)
  · rw [make_undefined_eq]
    exact classifyCount_packed _ _ (by norm_num) (by tauto)
  · rw [make_gc_ptr_eq]
    exact classifyCount_packed _ _ (Nat.mod_lt _ (by norm_num)) (by tauto)

theorem C1_exactly_one_classification_witness :
    (0 : Nat) &&& EXP_MASK ≠ EXP_MASK ∧
    (classifyCount (make_double 0) = 1 ∧ classifyCount (make_int32 (-5)) = 1 ∧
     classifyCount (make_bool true) = 1 ∧ classifyCount make_null = 1 ∧
     classifyCount make_undefined = 1 ∧ classifyCount (make_gc_ptr 123) = 1) :=
  ⟨by decide, C1_exactly_one_classification 0 (-5) true 123 (by decide)⟩

/-- C10: the NaN-boxed int32 round-trip is the identity on every 32-bit
signed integer, including negatives, and `is_int32` holds of the packed
word. -/
theorem C10_int32_roundtrip (v : Int) (h1 : -(2 ^ 31) ≤ v) (h2 : v < 2 ^ 31) :
    as_int32 (make_int32 v) = v ∧ is_int32 (make_int32 v) = true := by
  constructor
  · unfold as_int32
    rw [make_int32_eq, land_payload, Nat.mul_add_mod,
      Nat.mod_mod_of_dvd _ (dvd_refl (2 ^ 48)),
      Nat.mod_mod_of_dvd _ (show (2 ^ 32 : Nat) ∣ 2 ^ 48 by norm_num)]
    unfold u64_of_int32
    simp only []
    split <;> omega
  · have hp : u64_of_int32 v % 2 ^ 48 < 2 ^ 48 := Nat.mod_lt _ (by norm_num)
    rw [make_int32_eq]
    unfold is_int32
    rw [is_boxed_high _ _ hp, get_tag_high _ _ hp]
    decide

theorem C10_int32_roundtrip_witness :
    (-(2 ^ 31) ≤ (-5 : Int) ∧ (-5 : Int) < 2 ^ 31) ∧
    (as_int32 (make_int32 (-5)) = -5 ∧ is_int32 (make_int32 (-5)) = true) :=
  ⟨⟨by norm_num, by norm_num⟩, C10_int32_roundtrip (-5) (by norm_num) (by norm_num)⟩

end NanBox

/-! ## Section 2: runtime values and the VM arithmetic handlers (vm.cpp)

For the VM and evaluator semantics a value is modelled by its NaN-boxing
classification together with its payload.  Int32 payloads are integers,
double payloads are exact rationals: the handlers' control flow depends
only on classification and on comparison with zero, never on rounding.
`VPtr` carries the 48-bit address payload of a heap pointer. -/

namespace PebblRT

/-- A runtime value (`PEBBLObject`) as seen by the VM and evaluator. -/
inductive Value where
  | VInt (i : Int)
  | VDouble (q : ℚ)
  | VBool (b : Bool)
  | VNull
  | VUndefined
  | VPtr (addr : Nat)
deriving DecidableEq

/-- `PEBBLObject::is_int32` at the Value level. -/
def Value.is_int32 : Value → Bool
  | .VInt _ => true
  | _ => false

/-- `PEBBLObject::is_double` at the Value level. -/
def Value.is_double : Value → Bool
  | .VDouble _ => true
  | _ => false

/-- `PEBBLObject::as_int32` at the Value level (the payload; on values of
another classification the C++ read is unspecified, modelled as 0 — the
theorems below only apply it behind an `is_int32` test, as the code does). -/
def Value.as_int32 : Value → Int
  | .VInt i => i
  | _ => 0

/-- `PEBBLObject::as_double` at the Value level (payload; unspecified and
modelled as 0 on non-doubles, only used behind an `is_double` test). -/
def Value.as_double : Value → ℚ
  | .VDouble q => q
  | _ => 0

/-- A value of numeric classification: int32 or double. -/
def Value.is_numeric : Value → Bool
  | .VInt _ => true
  | .VDouble _ => true
  | _ => false

/-- Runtime errors surfaced by `VM::runtime_error` / the evaluator's
`RuntimeError`, identified by their message. -/
inductive RTError where
  | DivisionByZero
  | InvalidOperands
  | StackUnderflow
  | StackOverflow
  | UndefinedVariable
  | ImmutableAssignment
  | InvalidVariableIndex
  | InvalidConstantIndex
  | NotIterable
  | UnknownInstruction
deriving DecidableEq

/-- `OpCode` from bytecode.hpp. -/
inductive OpCode where
  | LOAD_CONST
  | LOAD_NULL
  | LOAD_TRUE
  | LOAD_FALSE
  | LOAD_VAR
  | STORE_VAR
  | DEFINE_VAR
  | ADD
  | SUBTRACT
  | MULTIPLY
  | DIVIDE
  | NEGATE
  | EQUAL
  | NOT_EQUAL
  | LESS
  | GREATER
  | LESS_EQUAL
  | GREATER_EQUAL
  | NOT
  | AND
  | OR
  | JUMP
  | JUMP_IF_FALSE
  | JUMP_IF_TRUE
  | CALL
  | RETURN
  | BUILD_ARRAY
  | BUILD_DICT
  | POP
  | DUP
  | PUSH_ENV
  | POP_ENV
  | SETUP_LOOP
  | BREAK_LOOP
  | HALT
deriving DecidableEq

/-- Two's-complement wrap of an integer into the int32 range, modelling the
de-facto behaviour of int32 overflow in ADD/SUBTRACT/MULTIPLY (the spec
leaves overflow unspecified). -/
def int32_wrap (i : Int) : Int :=
  let m : Int := i % 2 ^ 32
  if m < 2 ^ 31 then m else m - 2 ^ 32

/-- `VM::perform_numeric_operation` from vm.cpp: int32 x int32 stays int32
except DIVIDE which produces a double; if either operand is a double both
are widened and the result is a double; anything else is rejected. -/
def perform_numeric_operation (left right : Value) (operation : OpCode) : Option Value :=
  if left.is_int32 && right.is_int32 then
    let a := left.as_int32
    let b := right.as_int32
    match operation with
    | .ADD => some (.VInt (int32_wrap (a + b)))
    | .SUBTRACT => some (.VInt (int32_wrap (a - b)))
    | .MULTIPLY => some (.VInt (int32_wrap (a * b)))
    | .DIVIDE => some (.VDouble ((a : ℚ) / (b : ℚ)))
    | _ => none
  else if left.is_double || right.is_double then
    let a : ℚ := if left.is_int32 then (left.as_int32 : ℚ) else left.as_double
    let b : ℚ := if right.is_int32 then (right.as_int32 : ℚ) else right.as_double
    match operation with
    | .ADD => some (.VDouble (a + b))
    | .SUBTRACT => some (.VDouble (a - b))
    | .MULTIPLY => some (.VDouble (a * b))
    | .DIVIDE => some (.VDouble (a / b))
    | _ => none
  else none

/-- `VM::handle_divide` from vm.cpp: pop right then left; fail with
DivisionByZero when the right operand is int32 0 or double 0.0; otherwise
delegate to `perform_numeric_operation` with DIVIDE and push the result. -/
def handle_divide (stack : List Value) : Except RTError (List Value) :=
  match stack with
  | right :: left :: rest =>
    if (right.is_int32 && (right.as_int32 == 0)) ||
       (right.is_double && (right.as_double == 0)) then
      .error .DivisionByZero
    else
      match perform_numeric_operation left right .DIVIDE with
      | some result => .ok (result :: rest)
      | none => .error .InvalidOperands
  | _ => .error .StackUnderflow

/-- The SLASH case of `Interpreter::evaluate_binary` from interpreter.cpp:
four classification branches, each checking its zero divisor and throwing
DivisionByZero (`Interpreter::runtime_error` throws) before dividing;
other operand combinations are rejected ("Invalid operands for /"). -/
def evaluate_binary_slash (left right : Value) : Except RTError Value :=
  if left.is_int32 && right.is_int32 then
    if right.as_int32 == 0 then .error .DivisionByZero
    else .ok (.VDouble ((left.as_int32 : ℚ) / (right.as_int32 : ℚ)))
  else if left.is_double && right.is_double then
    if right.as_double == 0 then .error .DivisionByZero
    else .ok (.VDouble (left.as_double / right.as_double))
  else if left.is_int32 && right.is_double then
    if right.as_double == 0 then .error .DivisionByZero
    else .ok (.VDouble ((left.as_int32 : ℚ) / right.as_double))
  else if left.is_double && right.is_int32 then
    if right.as_int32 == 0 then .error .DivisionByZero
    else .ok (.VDouble (left.as_double / (right.as_int32 : ℚ)))
  else .error .InvalidOperands

/-- C2: for numeric operands, DIVIDE fails with DivisionByZero exactly when
the right operand is int32 0 or double 0.0, and otherwise pushes a double
result even when both operands are int32 — in the VM's `handle_divide` and
likewise in the tree-walker's `evaluate_binary` SLASH case. -/
theorem C2_divide_by_zero_iff (l r : Value) (rest : List Value)
    (hl : l.is_numeric = true) (hr : r.is_numeric = true) :
    (handle_divide (r :: l :: rest) = .error .DivisionByZero ↔
      (r = .VInt 0 ∨ r = .VDouble 0)) ∧
    (r ≠ .VInt 0 → r ≠ .VDouble 0 →
      ∃ q : ℚ, handle_divide (r :: l :: rest) = .ok (.VDouble q :: rest)) ∧
    (evaluate_binary_slash l r = .error .DivisionByZero ↔
      (r = .VInt 0 ∨ r = .VDouble 0)) ∧
    (r ≠ .VInt 0 → r ≠ .VDouble 0 →
      ∃ q : ℚ, evaluate_binary_slash l r = .ok (.VDouble q)) := by
  cases l with
  | VInt a =>
    cases r with
    | VInt b =>
      by_cases hb : b = 0 <;>
        simp [handle_divide, perform_numeric_operation, evaluate_binary_slash,
          Value.is_int32, Value.is_double, Value.as_int32, Value.as_double, hb]
    | VDouble qb =>
      by_cases hb : qb = 0 <;>
        simp [handle_divide, perform_numeric_operation, evaluate_binary_slash,
          Value.is_int32, Value.is_double, Value.as_int32, Value.as_double, hb]
    | VBool b => simp [Value.is_numeric] at hr
    | VNull => simp [Value.is_numeric] at hr
    | VUndefined => simp [Value.is_numeric] at hr
    | VPtr p => simp [Value.is_numeric] at hr
  | VDouble qa =>
    cases r with
    | VInt b =>
      by_cases hb : b = 0 <;>
        simp [handle_divide, perform_numeric_operation, evaluate_binary_slash,
          Value.is_int32, Value.is_double, Value.as_int32, Value.as_double, hb]
    | VDouble qb =>
      by_cases hb : qb = 0 <;>
        simp [handle_divide, perform_numeric_operation, evaluate_binary_slash,
          Value.is_int32, Value.is_double, Value.as_int32, Value.as_double, hb]
    | VBool b => simp [Value.is_numeric] at hr
    | VNull => simp [Value.is_numeric] at hr
    | VUndefined => simp [Value.is_numeric] at hr
    | VPtr p => simp [Value.is_numeric] at hr
  | VBool b => simp [Value.is_numeric] at hl
  | VNull => simp [Value.is_numeric] at hl
  | VUndefined => simp [Value.is_numeric] at hl
  | VPtr p => simp [Value.is_numeric] at hl

theorem C2_divide_by_zero_iff_witness :
    (∃ q : ℚ, handle_divide [.VInt 2, .VInt 7] = .ok [.VDouble q]) ∧
    (∃ q : ℚ, evaluate_binary_slash (.VInt 7) (.VInt 2) = .ok (.VDouble q)) :=
  ⟨(C2_divide_by_zero_iff (.VInt 7) (.VInt 2) [] (by decide) (by decide)).2.1
      (by decide) (by decide),
   (C2_divide_by_zero_iff (.VInt 7) (.VInt 2) [] (by decide) (by decide)).2.2.2
      (by decide) (by decide)⟩

end PebblRT

/-! ## Section 3: environments (environment.hpp / environment.cpp)

An `Environment` is a frame (`std::unordered_map<std::string, Variable>`)
plus an optional parent.  A chain of environments is modelled as a
nonempty list of frames, innermost first; a frame is an association list
with unique keys (`List.lookup` finds the binding).  `shared_ptr`
aliasing along one chain is captured by explicit state passing: operations
return the updated chain. -/

namespace PebblEnv

open PebblRT

/-- `Environment::Variable`: a value plus its mutability flag. -/
structure Variable where
  value : Value
  is_mutable : Bool
deriving DecidableEq

/-- One environment frame: the `variables_` map. -/
abbrev Frame := List (String × Variable)

/-- A chain of environments, innermost frame first (`parent_` links). -/
abbrev EnvChain := List Frame

/-- `std::unordered_map::emplace`: inserts only when the key is absent;
an existing binding is left untouched. -/
def emplace (f : Frame) (name : String) (var : Variable) : Frame :=
  if (List.lookup name f).isSome then f else (name, var) :: f

/-- Assignment through an existing map iterator (`it->second.value = value`):
updates the (unique) entry for `name` in place. -/
def frameAssign (f : Frame) (name : String) (v : Value) : Frame :=
  f.map (fun p => if p.1 = name then (p.1, { p.2 with value := v }) else p)

/-- `Environment::define`: `variables_.emplace(name, Variable(value, is_mutable))`
on the innermost frame. -/
def define (env : EnvChain) (name : String) (v : Value) (m : Bool) : EnvChain :=
  match env with
  | [] => []
  | f :: rest => emplace f name ⟨v, m⟩ :: rest

/-- `Environment::get`: search the innermost frame, then the parent chain;
throw UndefinedVariable when the name is nowhere bound. -/
def get (env : EnvChain) (name : String) : Except RTError Value :=
  match env with
  | [] => .error .UndefinedVariable
  | f :: rest =>
    match List.lookup name f with
    | some var => .ok var.value
    | none => get rest name

/-- `Environment::set`: search the innermost frame; if found, assign when
mutable and throw ImmutableAssignment otherwise; if absent, recurse into
the parent; throw UndefinedVariable at the end of the chain. -/
def set (env : EnvChain) (name : String) (v : Value) : Except RTError EnvChain :=
  match env with
  | [] => .error .UndefinedVariable
  | f :: rest =>
    match List.lookup name f with
    | some var =>
      if var.is_mutable then .ok (frameAssign f name v :: rest)
      else .error .ImmutableAssignment
    | none => (set rest name v).map (f :: ·)

/-- `Environment::exists`: the same walk as `get`, returning presence only. -/
def existsVar (env : EnvChain) (name : String) : Bool :=
  match env with
  | [] => false
  | f :: rest => (List.lookup name f).isSome || existsVar rest name

/-- The nearest binding of `name` in the chain, innermost frame first. -/
def nearest (env : EnvChain) (name : String) : Option Variable :=
  match env with
  | [] => none
  | f :: rest =>
    match List.lookup name f with
    | some var => some var
    | none => nearest rest name

/-- The bound names of every frame, in chain order. -/
def boundNames (env : EnvChain) : List (List String) :=
  env.map (fun f => f.map Prod.fst)

theorem frameAssign_names (f : Frame) (name : String) (v : Value) :
    (frameAssign f name v).map Prod.fst = f.map Prod.fst := by
  induction f with
  | nil => rfl
  | cons p rest ih =>
    simp only [frameAssign, List.map_cons] at ih ⊢
    by_cases h : p.1 = name <;> simp [h, ih]

/-- C3: `set` succeeds exactly when the nearest binding of the name is
mutable, fails with ImmutableAssignment exactly when the nearest binding is
immutable, fails with UndefinedVariable exactly when no frame binds the
name, and on success leaves the bound names of every frame unchanged
(never creating a binding). -/
theorem C3_set_spec (env : EnvChain) (name : String) (v : Value) :
    ((∃ env', set env name v = .ok env') ↔
      (∃ var, nearest env name = some var ∧ var.is_mutable = true)) ∧
    (set env name v = .error .ImmutableAssignment ↔
      (∃ var, nearest env name = some var ∧ var.is_mutable = false)) ∧
    (set env name v = .error .UndefinedVariable ↔ nearest env name = none) ∧
    (∀ env', set env name v = .ok env' → boundNames env' = boundNames env) := by
  induction env with
  | nil => simp [set, nearest]
  | cons f rest ih =>
    obtain ⟨ih1, ih2, ih3, ih4⟩ := ih
    cases hl : List.lookup name f with
    | some var =>
      cases hm : var.is_mutable with
      | true =>
        refine ⟨?_, ?_, ?_, ?_⟩
        · simp [set, nearest, hl, hm]
        · simp [set, nearest, hl, hm]
        · simp [set, nearest, hl, hm]
        · intro env' h
          simp only [set, hl, hm, if_true] at h
          cases h
          simp [boundNames, frameAssign_names]
      | false =>
        refine ⟨?_, ?_, ?_, ?_⟩
        · simp [set, nearest, hl, hm]
        · simp [set, nearest, hl, hm]
        · simp [set, nearest, hl, hm]
        · intro env' h
          simp [set, hl, hm] at h
    | none =>
      refine ⟨?_, ?_, ?_, ?_⟩
      · constructor
        · rintro ⟨env', h⟩
          simp only [set, hl] at h
          cases hs : set rest name v with
          | ok env'' => rw [nearest, hl]; exact ih1.mp ⟨env'', hs⟩
          | error e => rw [hs] at h; simp [Except.map] at h
        · intro h
          rw [nearest, hl] at h
          obtain ⟨env'', hs⟩ := ih1.mpr h
          exact ⟨f :: env'', by simp [set, hl, hs, Except.map]⟩
      · rw [set, nearest, hl]
        cases hs : set rest name v with
        | ok env'' =>
          simp only [hs, Except.map]
          constructor
          · intro h; cases h
          · intro h
            have : set rest name v = .error .ImmutableAssignment := ih2.mpr h
            rw [hs] at this; cases this
        | error e =>
          simp only [hs, Except.map]
          constructor
          · intro h
            cases h
            exact ih2.mp hs
          · intro h
            have := ih2.mpr h
            rw [hs] at this
            cases this
            rfl
      · rw [set, nearest, hl]
        cases hs : set rest name v with
        | ok env'' =>
          simp only [hs, Except.map]
          constructor
          · intro h; cases h
          · intro h
            have : set rest name v = .error .UndefinedVariable := ih3.mpr h
            rw [hs] at this; cases this
        | error e =>
          simp only [hs, Except.map]
          constructor
          · intro h
            cases h
            exact ih3.mp hs
          · intro h
            have := ih3.mpr h
            rw [hs] at this
            cases this
            rfl
      · intro env' h
        simp only [set, hl] at h
        cases hs : set rest name v with
        | ok env'' =>
          rw [hs] at h
          simp only [Except.map] at h
          cases h
          simp [boundNames] at ih4 ⊢
          exact ih4 env'' hs
        | error e => rw [hs] at h; simp [Except.map] at h

theorem C3_set_spec_witness :
    ∃ env', set [[("x", ⟨.VInt 1, true⟩)]] "x" (.VInt 9) = .ok env' :=
  (C3_set_spec [[("x", ⟨.VInt 1, true⟩)]] "x" (.VInt 9)).1.mpr
    ⟨⟨.VInt 1, true⟩, by decide, by decide⟩

/-- C4 (counterexample): `Environment::define` uses `unordered_map::emplace`,
which does not overwrite an existing binding in the same frame: after
defining `x = 1` and then defining `x = 2` in the same frame, `get x`
still returns 1, not 2. -/
theorem C4_define_existing_noop :
    define [[("x", ⟨.VInt 1, true⟩)]] "x" (.VInt 2) true = [[("x", ⟨.VInt 1, true⟩)]] ∧
    get (define [[("x", ⟨.VInt 1, true⟩)]] "x" (.VInt 2) true) "x" = .ok (.VInt 1) ∧
    (Except.ok (Value.VInt 1) ≠ (.ok (.VInt 2) : Except RTError Value)) := by
  refine ⟨by decide, rfl, by simp⟩

/-- C4 (amended): after `define(name, v, m)`, `get(name)` returns `v`
provided `name` was not already bound in the innermost frame — in
particular a binding in an outer frame is shadowed; when `name` is already
bound in the innermost frame, `define` is a no-op (`emplace` does not
overwrite). -/
theorem C4_define_get (f : Frame) (rest : List Frame) (name : String) (v : Value) (m : Bool) :
    (List.lookup name f = none → get (define (f :: rest) name v m) name = .ok v) ∧
    (∀ var, List.lookup name f = some var → define (f :: rest) name v m = f :: rest) := by
  constructor
  · intro h
    simp [define, emplace, h, get]
  · intro var h
    simp [define, emplace, h]

theorem C4_define_get_witness :
    (List.lookup "x" (([("y", ⟨.VInt 7, true⟩)]) : Frame) = none) ∧
    get (define [[("y", ⟨.VInt 7, true⟩)], [("x", ⟨.VInt 0, true⟩)]] "x" (.VInt 2) true) "x" =
      .ok (.VInt 2) :=
  ⟨by decide, (C4_define_get [("y", ⟨.VInt 7, true⟩)] [[("x", ⟨.VInt 0, true⟩)]] "x"
    (.VInt 2) true).1 (by decide)⟩

end PebblEnv

/-! ## Section 4: bytecode chunks, the VM loop, and compiler fragments
(bytecode.hpp, vm.cpp, compiler.cpp)

The VM here executes a single chunk in a single frame (no CALL/RETURN:
user-defined calls are unimplemented in the source VM).  The opcodes a
claim needs are embedded; the remaining opcodes report
`UnknownInstruction`, which no compiled fragment below ever reaches. -/

namespace PebblVM

open PebblRT PebblEnv

/-- `Instruction` from bytecode.hpp: an opcode and a `u32` operand. -/
structure Instruction where
  opcode : OpCode
  operand : Nat
deriving DecidableEq

/-- `Chunk` from bytecode.hpp. -/
structure Chunk where
  instructions : List Instruction
  constants : List Value
  variable_names : List String
deriving DecidableEq

def emptyChunk : Chunk := ⟨[], [], []⟩

/-- `Chunk::add_instruction`. -/
def add_instruction (c : Chunk) (op : OpCode) (operand : Nat) : Chunk :=
  { c with instructions := c.instructions ++ [⟨op, operand⟩] }

/-- `Chunk::add_constant`: appends and returns the new index. -/
def add_constant (c : Chunk) (v : Value) : Chunk × Nat :=
  ({ c with constants := c.constants ++ [v] }, c.constants.length)

/-- `Chunk::add_variable_name`: appends and returns the new index. -/
def add_variable_name (c : Chunk) (name : String) : Chunk × Nat :=
  ({ c with variable_names := c.variable_names ++ [name] }, c.variable_names.length)

/-- `Chunk::get_instruction_count`. -/
def get_instruction_count (c : Chunk) : Nat := c.instructions.length

/-- `Chunk::patch_jump`: overwrite the operand of the instruction at
`idx` with `target` (no-op when `idx` is out of range). -/
def patch_jump (c : Chunk) (idx target : Nat) : Chunk :=
  { c with instructions :=
      c.instructions.mapIdx (fun i ins => if i = idx then { ins with operand := target } else ins) }

/-- `VM::is_truthy` from vm.cpp. -/
def is_truthy : Value → Bool
  | .VBool b => b
  | .VNull => false
  | .VInt i => i != 0
  | .VDouble q => q != 0
  | _ => true

/-- The VM state for single-frame execution: value stack (top first), the
current environment chain, the instruction pointer of the top frame, and
the `had_error_` flag with its recorded error. -/
structure VMState where
  stack : List Value
  env : EnvChain
  ip : Nat
  err : Option RTError
deriving DecidableEq

/-- Dispatch of one fetched instruction (`VM::run`'s switch); the ip has
already been advanced past the instruction, as in the C++ fetch. -/
def exec (c : Chunk) (ins : Instruction) (st : VMState) : VMState :=
  match ins.opcode with
  | .LOAD_CONST =>
    match c.constants.get? ins.operand with
    | some v => { st with stack := v :: st.stack }
    | none => { st with err := some .InvalidConstantIndex }
  | .LOAD_NULL => { st with stack := .VNull :: st.stack }
  | .LOAD_TRUE => { st with stack := .VBool true :: st.stack }
  | .LOAD_FALSE => { st with stack := .VBool false :: st.stack }
  | .LOAD_VAR =>
    match c.variable_names.get? ins.operand with
    | some name =>
      match get st.env name with
      | .ok v => { st with stack := v :: st.stack }
      | .error _ => { st with err := some .UndefinedVariable }
    | none => { st with err := some .InvalidVariableIndex }
  | .STORE_VAR =>
    match c.variable_names.get? ins.operand with
    | some name =>
      match st.stack with
      | value :: _ =>
        match set st.env name value with
        | .ok env' => { st with env := env' }
        | .error e => { st with err := some e }
      | [] => { st with err := some .StackUnderflow }
    | none => { st with err := some .InvalidVariableIndex }
  | .DEFINE_VAR =>
    match c.variable_names.get? ins.operand with
    | some name =>
      match st.stack with
      | value :: rest => { st with stack := rest, env := define st.env name value true }
      | [] => { st with err := some .StackUnderflow }
    | none => { st with err := some .InvalidVariableIndex }
  | .ADD =>
    match st.stack with
    | right :: left :: rest =>
      match perform_numeric_operation left right .ADD with
      | some result => { st with stack := result :: rest }
      | none => { st with err := some .InvalidOperands }
    | _ => { st with err := some .StackUnderflow }
  | .SUBTRACT =>
    match st.stack with
    | right :: left :: rest =>
      match perform_numeric_operation left right .SUBTRACT with
      | some result => { st with stack := result :: rest }
      | none => { st with err := some .InvalidOperands }
    | _ => { st with err := some .StackUnderflow }
  | .MULTIPLY =>
    match st.stack with
    | right :: left :: rest =>
      match perform_numeric_operation left right .MULTIPLY with
      | some result => { st with stack := result :: rest }
      | none => { st with err := some .InvalidOperands }
    | _ => { st with err := some .StackUnderflow }
  | .DIVIDE =>
    match handle_divide st.stack with
    | .ok stack' => { st with stack := stack' }
    | .error e => { st with err := some e }
  | .JUMP => { st with ip := ins.operand }
  | .JUMP_IF_FALSE =>
    match st.stack with
    | cond :: rest =>
      if is_truthy cond then { st with stack := rest }
      else { st with stack := rest, ip := ins.operand }
    | [] => { st with err := some .StackUnderflow }
  | .JUMP_IF_TRUE =>
    match st.stack with
    | cond :: rest =>
      if is_truthy cond then { st with stack := rest, ip := ins.operand }
      else { st with stack := rest }
    | [] => { st with err := some .StackUnderflow }
  | .POP =>
    match st.stack with
    | _ :: rest => { st with stack := rest }
    | [] => { st with err := some .StackUnderflow }
  | .DUP =>
    match st.stack with
    | v :: rest => { st with stack := v :: v :: rest }
    | [] => { st with err := some .StackUnderflow }
  | _ => { st with err := some .UnknownInstruction }

/-- `VM::run` for a single frame with explicit fuel: stop on error, at the
end of the chunk, or at HALT; otherwise fetch (advancing the ip) and
dispatch. -/
def run (fuel : Nat) (c : Chunk) (st : VMState) : VMState :=
  match fuel with
  | 0 => st
  | fuel + 1 =>
    if st.err.isSome then st
    else
      match c.instructions.get? st.ip with
      | none => st
      | some ins =>
        if ins.opcode = .HALT then st
        else run fuel c (exec c ins { st with ip := st.ip + 1 })

/-- `CompilationScope` from compiler.hpp, reduced to what `resolve_variable`
and `define_variable` touch: the per-scope variable map (name to
`VariableInfo::index`) and the scope-local counter. -/
structure CompilationScope where
  vars : List (String × Nat)
  variable_count : Nat

def emptyScope : CompilationScope := ⟨[], 0⟩

/-- `Compiler::resolve_variable`: a name found in the current scope's map
resolves to its stored index; otherwise the name is appended to the
chunk's name table and that index is used. -/
def resolve_variable (scope : CompilationScope) (c : Chunk) (name : String) : Chunk × Nat :=
  match List.lookup name scope.vars with
  | some idx => (c, idx)
  | none => add_variable_name c name

/-- The expression fragment of the syntax tree that the embedded compiler
fragments consume (integer/boolean literals, identifiers, assignment to an
identifier target, if/else expressions). -/
inductive Expr where
  | intLit (v : Int)
  | boolLit (b : Bool)
  | ident (name : String)
  | assign (target : String) (value : Expr)
  | ifElse (cond thenE : Expr) (elseE : Option Expr)

/-- `Compiler::compile_expression` from compiler.cpp restricted to the
fragment above; in particular `compile_assignment_expression` emits the
value, `STORE_VAR`, and then `DUP` ("Assignment expressions also leave the
value on the stack"), and `compile_if_else_expression` emits the end-jump
only when an else branch is present. -/
def compile_expression (scope : CompilationScope) (e : Expr) (c : Chunk) : Chunk :=
  match e with
  | .intLit v =>
    let (c1, k) := add_constant c (.VInt v)
    add_instruction c1 .LOAD_CONST k
  | .boolLit b =>
    if b then add_instruction c .LOAD_TRUE 0 else add_instruction c .LOAD_FALSE 0
  | .ident name =>
    let (c1, k) := resolve_variable scope c name
    add_instruction c1 .LOAD_VAR k
  | .assign target value =>
    let c1 := compile_expression scope value c
    let (c2, k) := resolve_variable scope c1 target
    let c3 := add_instruction c2 .STORE_VAR k
    add_instruction c3 .DUP 0
  | .ifElse cond thenE elseE =>
    let c1 := compile_expression scope cond c
    let elseJump := get_instruction_count c1
    let c2 := add_instruction c1 .JUMP_IF_FALSE 0
    let c3 := compile_expression scope thenE c2
    match elseE with
    | some e2 =>
      let endJump := get_instruction_count c3
      let c4 := add_instruction c3 .JUMP 0
      let c5 := patch_jump c4 elseJump (get_instruction_count c4)
      let c6 := compile_expression scope e2 c5
      patch_jump c6 endJump (get_instruction_count c6)
    | none =>
      let c4 := patch_jump c3 elseJump (get_instruction_count c3)
      add_instruction c4 .LOAD_NULL 0

/-- `Compiler::compile_expression_statement`: the expression, followed by
POP when not at global scope (`is_global_scope()` passed in as a flag). -/
def compile_expression_statement (scope : CompilationScope) (isGlobal : Bool) (e : Expr)
    (c : Chunk) : Chunk :=
  let c1 := compile_expression scope e c
  if isGlobal then c1 else add_instruction c1 .POP 0

/-- C5 (code bug): for the expression statement `x = 42` in a non-global
scope, the compiler emits value, STORE_VAR, DUP, POP.  `handle_store_var`
peeks without popping ("Don't pop yet, assignment returns the value"), so
the extra DUP leaves TWO copies of the assigned value before the POP; the
statement's single POP then leaves the stack one value higher than before,
contradicting the claimed net effect of exactly one pushed value.  The
assignment itself does reach the binding. -/
theorem C5_assignment_extra_dup :
    (compile_expression_statement emptyScope false (.assign "x" (.intLit 42)) emptyChunk
      = ⟨[⟨.LOAD_CONST, 0⟩, ⟨.STORE_VAR, 0⟩, ⟨.DUP, 0⟩, ⟨.POP, 0⟩], [.VInt 42], ["x"]⟩) ∧
    (run 3 (compile_expression_statement emptyScope false (.assign "x" (.intLit 42)) emptyChunk)
        ⟨[], [[("x", ⟨.VInt 0, true⟩)]], 0, none⟩).stack = [.VInt 42, .VInt 42] ∧
    (run 9 (compile_expression_statement emptyScope false (.assign "x" (.intLit 42)) emptyChunk)
        ⟨[], [[("x", ⟨.VInt 0, true⟩)]], 0, none⟩).stack = [.VInt 42] ∧
    (run 9 (compile_expression_statement emptyScope false (.assign "x" (.intLit 42)) emptyChunk)
        ⟨[], [[("x", ⟨.VInt 0, true⟩)]], 0, none⟩).err = none ∧
    get (run 9 (compile_expression_statement emptyScope false (.assign "x" (.intLit 42)) emptyChunk)
        ⟨[], [[("x", ⟨.VInt 0, true⟩)]], 0, none⟩).env "x" = .ok (.VInt 42) := by
  refine ⟨rfl, rfl, rfl, rfl, rfl⟩

/-- C6 (code bug): an if/else expression with NO else branch compiles to
condition, JUMP_IF_FALSE over the then branch, then branch, LOAD_NULL —
with no jump over the LOAD_NULL.  On a truthy condition the then value is
pushed and execution falls through into LOAD_NULL, leaving TWO values
(null on top) instead of the claimed single then-branch value.  On a falsy
condition exactly one value (null) is left, as claimed. -/
theorem C6_ifelse_no_else_fallthrough :
    (compile_expression emptyScope (.ifElse (.boolLit true) (.intLit 1) none) emptyChunk
      = ⟨[⟨.LOAD_TRUE, 0⟩, ⟨.JUMP_IF_FALSE, 3⟩, ⟨.LOAD_CONST, 0⟩, ⟨.LOAD_NULL, 0⟩],
         [.VInt 1], []⟩) ∧
    (run 9 (compile_expression emptyScope (.ifElse (.boolLit true) (.intLit 1) none) emptyChunk)
        ⟨[], [[]], 0, none⟩).stack = [.VNull, .VInt 1] ∧
    (run 9 (compile_expression emptyScope (.ifElse (.boolLit true) (.intLit 1) none) emptyChunk)
        ⟨[], [[]], 0, none⟩).err = none ∧
    (run 9 (compile_expression emptyScope (.ifElse (.boolLit false) (.intLit 1) none) emptyChunk)
        ⟨[], [[]], 0, none⟩).stack = [.VNull] := by
  refine ⟨rfl, rfl, rfl, rfl⟩

end PebblVM

/-! ## Section 5: the tree-walking evaluator's for-in statement
(interpreter.cpp `Interpreter::execute_for_statement`)

The statement fragment needed here is the for-in loop over an already
evaluated Array iterable with a (possibly nested) block body.  The
fragment contains no return statements, so the evaluator's `has_return_`
flag is constantly false and elided; the dict branch is identical to the
array branch except that it binds freshly allocated key strings. -/

namespace PebblInterp

open PebblRT PebblEnv

/-- The statement fragment consumed by the embedded evaluator: blocks and
for-in over an evaluated array of element values. -/
inductive Stmt where
  | block (stmts : List Stmt)
  | forIn (name : String) (elements : List Value) (body : Stmt)

/-- `Interpreter::pop_environment`: move to the parent when one exists. -/
def pop_environment (env : EnvChain) : EnvChain :=
  match env with
  | _ :: parent :: rest => parent :: rest
  | e => e

mutual

/-- `Interpreter::execute` on the statement fragment: block execution
pushes a child environment and pops it on every exit path (including the
exception path, via the `catch` blocks in interpreter.cpp). -/
def execStmt (s : Stmt) (env : EnvChain) : EnvChain × Option RTError :=
  match s with
  | .block stmts =>
    match execList stmts ([] :: env) with
    | (env', e) => (pop_environment env', e)
  | .forIn name elements body => execute_for name elements body env

def execList (stmts : List Stmt) (env : EnvChain) : EnvChain × Option RTError :=
  match stmts with
  | [] => (env, none)
  | s :: rest =>
    match execStmt s env with
    | (env', none) => execList rest env'
    | (env', some e) => (env', some e)

/-- `Interpreter::execute_for_statement` (array branch): push a fresh loop
environment, then for each element bind the loop variable — `define` when
`current_env_->exists(name)` is false, `set` otherwise (note `exists`
walks the whole parent chain) — and execute the body; pop the loop
environment on exit, also when an exception unwinds. -/
def execute_for (name : String) (elements : List Value) (body : Stmt)
    (env : EnvChain) : EnvChain × Option RTError :=
  match forLoop name body elements ([] :: env) with
  | (env', none) => (pop_environment env', none)
  | (env', some e) => (pop_environment env', some e)

def forLoop (name : String) (body : Stmt) (elements : List Value)
    (env : EnvChain) : EnvChain × Option RTError :=
  match elements with
  | [] => (env, none)
  | el :: rest =>
    let bound : Except RTError EnvChain :=
      if existsVar env name = false then .ok (define env name el true)
      else set env name el
    match bound with
    | .error e => (env, some e)
    | .ok env1 =>
      match execStmt body env1 with
      | (env2, none) => forLoop name body rest env2
      | (env2, some e) => (env2, some e)

end

/-- C9 (code bug): the loop variable of a for-in is NOT confined to the
fresh loop scope.  `exists` walks the parent chain, so with an outer
binding of the same name the loop assigns through to it: after
`for x in [10, 20]` with an outer mutable `x = 0`, the outer binding holds
20; with an outer immutable `x`, the first iteration fails with
ImmutableAssignment. -/
theorem C9_forin_leaks_outer_binding :
    execute_for "x" [.VInt 10, .VInt 20] (.block []) [[("x", ⟨.VInt 0, true⟩)]]
      = ([[("x", ⟨.VInt 20, true⟩)]], none) ∧
    (execute_for "x" [.VInt 10, .VInt 20] (.block []) [[("x", ⟨.VInt 0, false⟩)]]).2
      = some .ImmutableAssignment := by
  constructor
  · simp [execute_for, forLoop, execStmt, execList, pop_environment, define, PebblEnv.set,
      existsVar, emplace, frameAssign, List.lookup, Except.map]
  · simp [execute_for, forLoop, execStmt, execList, pop_environment, define, PebblEnv.set,
      existsVar, emplace, frameAssign, List.lookup, Except.map]

end PebblInterp

/-! ## Section 6: the mark-and-sweep heap (gc.hpp / gc.cpp)

Objects are addressed by `Nat`; the allocation list `objects_` is an
association list from address to object (mark flag plus the addresses the
object's `trace` marks).  `Tracer::mark` drains its worklist inside every
call, which is observationally the fuel-bounded depth-first marking
`markRec` below; the heap's length always bounds the fuel actually needed
(each recursive step marks a previously unmarked object). -/

namespace PebblGC

/-- A garbage-collected object (`GCObject`): the mark flag and the
addresses its `trace` implementation marks. -/
structure GObj where
  marked : Bool
  fields : List Nat
deriving DecidableEq

/-- The allocation list `objects_`, most recently allocated first. -/
abbrev Heap := List (Nat × GObj)

/-- `GCHeap`: allocation list, live count `object_count_`, and collection
threshold `next_gc_`. -/
structure GCHeap where
  objects : Heap
  object_count : Nat
  next_gc : Nat
deriving DecidableEq

/-- Dereference an address in the allocation list. -/
def lookup (h : Heap) (a : Nat) : Option GObj := List.lookup a h

/-- `obj->marked = true` for the object at address `a`. -/
def setMarked (h : Heap) (a : Nat) : Heap :=
  h.map (fun p => if p.1 = a then (p.1, { p.2 with marked := true }) else p)

/-- `Tracer::mark`: null or already-marked objects are skipped; otherwise
the object is marked and its outgoing references are traced in turn. -/
def markRec (fuel : Nat) (h : Heap) (a : Nat) : Heap :=
  match fuel with
  | 0 => h
  | fuel + 1 =>
    match lookup h a with
    | none => h
    | some o =>
      if o.marked then h
      else o.fields.foldl (markRec fuel) (setMarked h a)

/-- `GCHeap::mark`: trace every registered root. -/
def markHeap (roots : List Nat) (h : Heap) : Heap :=
  roots.foldl (fun h1 r => markRec h1.length h1 r) h

/-- `GCHeap::sweep`: unlink and destroy unmarked objects, clear the mark
flags of the survivors (order preserved). -/
def sweepList (h : Heap) : Heap :=
  h.foldr
    (fun p acc => if p.2.marked then (p.1, { p.2 with marked := false }) :: acc else acc) []

/-- `GCHeap::collect`: mark, sweep, set `object_count_` to the survivor
count and `next_gc_` to double the live objects. -/
def collect (roots : List Nat) (g : GCHeap) : GCHeap :=
  let marked := markHeap roots g.objects
  let swept := sweepList marked
  { objects := swept, object_count := swept.length, next_gc := swept.length * 2 }

/-- `GCHeap::allocate` (gc.hpp): link the new object at the head of the
list, bump the count, and run a collection when the count has reached the
threshold. -/
def allocate (roots : List Nat) (g : GCHeap) (a : Nat) (o : GObj) : GCHeap :=
  let g1 : GCHeap :=
    { objects := (a, o) :: g.objects, object_count := g.object_count + 1, next_gc := g.next_gc }
  if g1.object_count ≥ g1.next_gc then collect roots g1 else g1

/-- The freshly constructed heap: `objects_(nullptr), object_count_(0),
next_gc_(8)`. -/
def initialHeap : GCHeap := ⟨[], 0, 8⟩

/-- C7 (counterexample): collecting a heap whose single object is
unreachable leaves 0 survivors and sets the threshold to 0, not to
`max(8, 2*0) = 8`: `collect` has no floor at the initial threshold. -/
theorem C7_threshold_no_floor :
    (collect [] ⟨[(0, ⟨false, []⟩)], 1, 8⟩).object_count = 0 ∧
    (collect [] ⟨[(0, ⟨false, []⟩)], 1, 8⟩).next_gc = 0 ∧
    (collect [] ⟨[(0, ⟨false, []⟩)], 1, 8⟩).next_gc ≠ max 8 (2 * 0) ∧
    initialHeap.next_gc = 8 := by
  refine ⟨rfl, rfl, by decide, rfl⟩

/-- C7 (amended): after a collection with `n` survivors the next threshold
is exactly `2 * n` — with no floor at the initial threshold 8 — and
`allocate` links the new object, bumps the count, and runs a collection
exactly when the bumped count has reached the current threshold. -/
theorem C7_threshold_policy (roots : List Nat) (g : GCHeap) (a : Nat) (o : GObj) :
    (collect roots g).next_gc = 2 * (collect roots g).object_count ∧
    (allocate roots g a o =
      if g.object_count + 1 ≥ g.next_gc
      then collect roots ⟨(a, o) :: g.objects, g.object_count + 1, g.next_gc⟩
      else ⟨(a, o) :: g.objects, g.object_count + 1, g.next_gc⟩) := by
  exact ⟨Nat.mul_comm _ _, rfl⟩


/-! ### C8: repeated collection is a no-op — marking infrastructure

`MarksLE h h'` says `h'` is `h` with the same objects in the same order,
the same fields, and a pointwise larger set of mark flags: the only kind
of change the mark phase makes. -/

/-- The addresses of the allocation list, in order. -/
def keys (h : Heap) : List Nat := h.map Prod.fst

/-- The allocation list with the mark flags erased. -/
def shape (h : Heap) : List (Nat × List Nat) := h.map (fun p => (p.1, p.2.fields))

/-- The object at address `x` exists and is marked. -/
def entryMarked (h : Heap) (x : Nat) : Prop :=
  ∃ o, lookup h x = some o ∧ o.marked = true

/-- The number of unmarked entries. -/
def unmarkedCount (h : Heap) : Nat := (h.filter (fun p => !p.2.marked)).length

/-- Pointwise: same addresses and fields, marks only grow. -/
def MarksLE (h h' : Heap) : Prop :=
  List.Forall₂
    (fun p q => q.1 = p.1 ∧ q.2.fields = p.2.fields ∧ (p.2.marked = true → q.2.marked = true))
    h h'

theorem marksLE_refl (h : Heap) : MarksLE h h := by
  rw [MarksLE, List.forall₂_same]
  exact fun p _ => ⟨rfl, rfl, id⟩

theorem marksLE_trans {a b c : Heap} (h1 : MarksLE a b) (h2 : MarksLE b c) : MarksLE a c := by
  induction h1 generalizing c with
  | nil => cases h2; exact .nil
  | cons hpq _ ih =>
    cases h2 with
    | cons hqc hrest2 =>
      exact .cons ⟨hqc.1.trans hpq.1, hqc.2.1.trans hpq.2.1, fun hm => hqc.2.2 (hpq.2.2 hm)⟩
        (ih hrest2)

theorem marksLE_setMarked (h : Heap) (a : Nat) : MarksLE h (setMarked h a) := by
  induction h with
  | nil => exact .nil
  | cons p t ih =>
    refine .cons ?_ ih
    by_cases hp : p.1 = a <;> simp [hp]

theorem shape_eq_of_marksLE {h h' : Heap} (hle : MarksLE h h') : shape h' = shape h := by
  induction hle with
  | nil => rfl
  | cons hpq _ ih =>
    simp only [shape, List.map_cons] at ih ⊢
    rw [hpq.1, hpq.2.1, ih]

theorem entryMarked_of_marksLE {h h' : Heap} (hle : MarksLE h h') :
    ∀ x, entryMarked h x → entryMarked h' x := by
  induction hle with
  | nil => intro x hx; obtain ⟨o, ho, _⟩ := hx; cases ho
  | cons hpq hrest ih =>
    rename_i p q t t'
    intro x hx
    obtain ⟨o, ho, hm⟩ := hx
    rw [entryMarked]
    by_cases hxp : x = p.1
    · rw [lookup, List.lookup_cons] at ho ⊢
      have hbeq : (x == p.1) = true := beq_iff_eq.mpr hxp
      have hbeq' : (x == q.1) = true := beq_iff_eq.mpr (hpq.1 ▸ hxp)
      rw [hbeq] at ho
      rw [hbeq']
      cases ho
      exact ⟨q.2, rfl, hpq.2.2 hm⟩
    · rw [lookup, List.lookup_cons] at ho ⊢
      have hbeq : (x == p.1) = false := beq_eq_false_iff_ne.mpr hxp
      have hbeq' : (x == q.1) = false := beq_eq_false_iff_ne.mpr (hpq.1 ▸ hxp)
      rw [hbeq] at ho
      rw [hbeq']
      exact ih x ⟨o, ho, hm⟩

theorem unmarkedCount_le_of_marksLE {h h' : Heap} (hle : MarksLE h h') :
    unmarkedCount h' ≤ unmarkedCount h := by
  induction h generalizing h' with
  | nil => cases hle; exact Nat.le_refl _
  | cons p t ih =>
    cases hle with
    | cons hpq hrest =>
      rename_i q t'
      have iht := ih hrest
      simp only [unmarkedCount, List.filter_cons] at iht ⊢
      cases hpm : p.2.marked with
      | true =>
        have hqm : q.2.marked = true := hpq.2.2 hpm
        simp [hpm, hqm]
        omega
      | false =>
        cases hqm : q.2.marked <;> simp [hpm, hqm] <;> omega

/-- Transfer a reflexive-transitive heap relation through a `foldl`. -/
theorem foldl_rel {β : Type} {R : Heap → Heap → Prop} {g : Heap → β → Heap}
    (hrefl : ∀ h, R h h)
    (htrans : ∀ {a b c : Heap}, R a b → R b c → R a c)
    (hstep : ∀ (h : Heap) (x : β), R h (g h x)) :
    ∀ (l : List β) (h : Heap), R h (l.foldl g h) := by
  intro l
  induction l with
  | nil => intro h; exact hrefl h
  | cons x xs ih => intro h; exact htrans (hstep h x) (ih (g h x))

theorem marksLE_markRec (f : Nat) : ∀ (h : Heap) (a : Nat), MarksLE h (markRec f h a) := by
  induction f with
  | zero => intro h a; exact marksLE_refl h
  | succ f ih =>
    intro h a
    rw [markRec]
    cases lookup h a with
    | none => exact marksLE_refl h
    | some o =>
      by_cases hm : o.marked
      · simp only [hm, if_true]; exact marksLE_refl h
      · simp only [hm, if_false]
        exact marksLE_trans (marksLE_setMarked h a)
          (foldl_rel marksLE_refl marksLE_trans ih o.fields (setMarked h a))

theorem markRec_shape (f : Nat) (h : Heap) (a : Nat) : shape (markRec f h a) = shape h :=
  shape_eq_of_marksLE (marksLE_markRec f h a)

/-- With equal shapes, lookups agree on presence and fields. -/
theorem lookup_of_shape_eq {h h' : Heap} (hs : shape h' = shape h) :
    ∀ x, (lookup h' x).map GObj.fields = (lookup h x).map GObj.fields := by
  induction h generalizing h' with
  | nil =>
    cases h' with
    | nil => intro x; rfl
    | cons q t' => simp [shape] at hs
  | cons p t ih =>
    cases h' with
    | nil => simp [shape] at hs
    | cons q t' =>
      simp only [shape, List.map_cons, List.cons_eq_cons] at hs
      obtain ⟨⟨hk, hf⟩, hrest⟩ := Prod.mk.injEq _ _ _ _ ▸ hs
      intro x
      rw [lookup, List.lookup_cons, lookup, List.lookup_cons]
      have hk' : q.1 = p.1 := hk
      by_cases hxp : x = p.1
      · have : (x == p.1) = true := beq_iff_eq.mpr hxp
        have h2 : (x == q.1) = true := beq_iff_eq.mpr (hk' ▸ hxp)
        rw [this, h2]
        simp [Option.map, hf]
      · have : (x == p.1) = false := beq_eq_false_iff_ne.mpr hxp
        have h2 : (x == q.1) = false := beq_eq_false_iff_ne.mpr (hk' ▸ hxp)
        rw [this, h2]
        exact ih hrest x

theorem isSome_of_shape_eq {h h' : Heap} (hs : shape h' = shape h) :
    ∀ x, (lookup h' x).isSome = (lookup h x).isSome := by
  intro x
  have := lookup_of_shape_eq hs x
  cases hl' : lookup h' x <;> cases hl : lookup h x <;> rw [hl', hl] at this <;>
    simp_all


theorem lookup_setMarked (h : Heap) (a x : Nat) :
    lookup (setMarked h a) x =
      (lookup h x).map (fun o => if x = a then { o with marked := true } else o) := by
  induction h with
  | nil => rfl
  | cons p t ih =>
    obtain ⟨pk, pv⟩ := p
    simp only [setMarked, List.map_cons] at ih ⊢
    by_cases hxk : x = pk
    · subst hxk
      by_cases hka : x = a
      · subst hka
        simp [lookup, List.lookup_cons]
      · simp [lookup, List.lookup_cons, hka]
    · have hb : (x == pk) = false := beq_eq_false_iff_ne.mpr hxk
      simp only [lookup] at ih
      by_cases hka : pk = a
      · subst hka
        simp [lookup, List.lookup_cons, hb, ih]
      · simp [lookup, List.lookup_cons, hb, hka, ih]

theorem entryMarked_setMarked {h : Heap} {a : Nat} (hs : (lookup h a).isSome) :
    entryMarked (setMarked h a) a := by
  rw [entryMarked, lookup_setMarked]
  cases hl : lookup h a with
  | none => rw [hl] at hs; cases hs
  | some o => exact ⟨{ o with marked := true }, by simp, rfl⟩

theorem marked_of_unmarkedCount_zero {h : Heap} (hz : unmarkedCount h = 0) :
    ∀ x o, lookup h x = some o → o.marked = true := by
  induction h with
  | nil => intro x o hx; cases hx
  | cons p t ih =>
    simp only [unmarkedCount, List.filter_cons] at hz
    cases hpm : p.2.marked with
    | false => simp [hpm] at hz
    | true =>
      rw [hpm] at hz
      simp only [Bool.not_true] at hz
      rw [if_neg (by simp)] at hz
      intro x o hx
      rw [lookup, List.lookup_cons] at hx
      by_cases hxp : x = p.1
      · rw [beq_iff_eq.mpr hxp] at hx
        cases hx
        exact hpm
      · rw [beq_eq_false_iff_ne.mpr hxp] at hx
        exact ih hz x o hx

theorem markRec_post (f : Nat) :
    ∀ (h : Heap) (a : Nat), unmarkedCount h ≤ f → (lookup h a).isSome →
      entryMarked (markRec f h a) a := by
  induction f with
  | zero =>
    intro h a hf hs
    have hz : unmarkedCount h = 0 := Nat.le_zero.mp hf
    cases hl : lookup h a with
    | none => rw [hl] at hs; cases hs
    | some o => exact ⟨o, by rw [markRec]; exact hl, marked_of_unmarkedCount_zero hz a o hl⟩
  | succ f ih =>
    intro h a _ hs
    cases hla : lookup h a with
    | none => rw [hla] at hs; cases hs
    | some o =>
      simp only [markRec, hla]
      by_cases hm : o.marked
      · rw [if_pos hm]; exact ⟨o, hla, hm⟩
      · rw [if_neg hm]
        have h1 : entryMarked (setMarked h a) a := entryMarked_setMarked hs
        have hle : MarksLE (setMarked h a) (o.fields.foldl (markRec f) (setMarked h a)) :=
          foldl_rel marksLE_refl marksLE_trans (marksLE_markRec f) o.fields (setMarked h a)
        exact entryMarked_of_marksLE hle a h1

theorem unmarkedCount_cons (q : Nat × GObj) (r : Heap) :
    unmarkedCount (q :: r) = (if q.2.marked then 0 else 1) + unmarkedCount r := by
  simp only [unmarkedCount, List.filter_cons]
  cases hq : q.2.marked <;> simp [hq, Nat.add_comm]

theorem setMarked_cons (p : Nat × GObj) (t : Heap) (a : Nat) :
    setMarked (p :: t) a =
      (if p.1 = a then (p.1, { p.2 with marked := true }) else p) :: setMarked t a := by
  rw [setMarked, List.map_cons]
  rfl

theorem unmarkedCount_setMarked_lt {h : Heap} {a : Nat} {o : GObj}
    (hl : lookup h a = some o) (hm : o.marked = false) :
    unmarkedCount (setMarked h a) < unmarkedCount h := by
  induction h with
  | nil => cases hl
  | cons p t ih =>
    rw [lookup, List.lookup_cons] at hl
    rw [setMarked_cons, unmarkedCount_cons, unmarkedCount_cons]
    by_cases hap : a = p.1
    · have hpa : p.1 = a := hap.symm
      rw [beq_iff_eq.mpr hap] at hl
      cases hl
      have htail : unmarkedCount (setMarked t a) ≤ unmarkedCount t :=
        unmarkedCount_le_of_marksLE (marksLE_setMarked t a)
      rw [if_pos hpa]
      simp only [hm]
      simp
      omega
    · have hpa : p.1 ≠ a := fun hc => hap hc.symm
      rw [beq_eq_false_iff_ne.mpr (fun hc => hap hc)] at hl
      have hstrict := ih hl
      rw [if_neg hpa]
      omega

/-- Reachability from an address through the heap's fields; every node on
a path is present in the heap. -/
inductive Reach (h : Heap) : Nat → Nat → Prop where
  | refl (a : Nat) (ha : (lookup h a).isSome) : Reach h a a
  | tail {a x g : Nat} {o : GObj} (hr : Reach h a x) (ho : lookup h x = some o)
      (hg : g ∈ o.fields) (hs : (lookup h g).isSome) : Reach h a g

theorem Reach.src_isSome {h : Heap} {a x : Nat} (hr : Reach h a x) :
    (lookup h a).isSome := by
  induction hr with
  | refl ha => exact ha
  | tail _ _ _ _ ih => exact ih

theorem Reach.dest_isSome {h : Heap} {a x : Nat} (hr : Reach h a x) :
    (lookup h x).isSome := by
  cases hr with
  | refl ha => exact ha
  | tail _ _ _ hs => exact hs

theorem reach_trans {h : Heap} {a x y : Nat} (h1 : Reach h a x) (h2 : Reach h x y) :
    Reach h a y := by
  induction h2 with
  | refl _ => exact h1
  | tail _ ho hg hs ih => exact .tail ih ho hg hs

theorem reach_of_shape_eq {h h' : Heap} (hs : shape h' = shape h) {a x : Nat}
    (hr : Reach h' a x) : Reach h a x := by
  induction hr with
  | refl hb =>
    exact .refl _ (by rw [← isSome_of_shape_eq hs]; exact hb)
  | @tail z g o hr ho hg hsome ih =>
    have hfield := lookup_of_shape_eq hs z
    rw [ho] at hfield
    cases hlz : lookup h z with
    | none => rw [hlz] at hfield; cases hfield
    | some o2 =>
      rw [hlz] at hfield
      simp only [Option.map] at hfield
      have hf2 : o2.fields = o.fields := by injection hfield with hh; exact hh.symm
      exact .tail ih hlz (hf2 ▸ hg) (by rw [← isSome_of_shape_eq hs]; exact hsome)

theorem markRec_sound (f : Nat) :
    ∀ (h : Heap) (a : Nat) (x : Nat), entryMarked (markRec f h a) x →
      entryMarked h x ∨ Reach h a x := by
  induction f with
  | zero => intro h a x hx; exact Or.inl hx
  | succ f ih =>
    intro h a x hx
    cases hla : lookup h a with
    | none => rw [markRec, hla] at hx; exact Or.inl hx
    | some o =>
      simp only [markRec, hla] at hx
      by_cases hm : o.marked
      · rw [if_pos hm] at hx; exact Or.inl hx
      · rw [if_neg hm] at hx
        have haux : ∀ (l : List Nat), (∀ z ∈ l, z ∈ o.fields) → ∀ (hh : Heap),
            shape hh = shape h →
            (∀ y, entryMarked hh y → entryMarked h y ∨ Reach h a y) →
            ∀ y, entryMarked (l.foldl (markRec f) hh) y →
              entryMarked h y ∨ Reach h a y := by
          intro l
          induction l with
          | nil => intro _ hh _ hinv y hy; exact hinv y hy
          | cons g gs ihl =>
            intro hsub hh hsh hinv y hy
            simp only [List.foldl_cons] at hy
            refine ihl (fun z hz => hsub z (List.mem_cons_of_mem _ hz)) (markRec f hh g)
              ?_ ?_ y hy
            · rw [markRec_shape, hsh]
            · intro z hz
              rcases ih hh g z hz with hold | hreach
              · exact hinv z hold
              · have hreach2 : Reach h g z := reach_of_shape_eq hsh hreach
                have hgin : (lookup h g).isSome := hreach2.src_isSome
                have hag : Reach h a g :=
                  Reach.tail (Reach.refl a (by rw [hla]; rfl)) hla
                    (hsub g (List.mem_cons_self g gs)) hgin
                exact Or.inr (reach_trans hag hreach2)
        refine haux o.fields (fun z hz => hz) (setMarked h a) ?_ ?_ x hx
        · exact shape_eq_of_marksLE (marksLE_setMarked h a)
        · intro z hz
          by_cases hza : z = a
          · subst hza
            exact Or.inr (Reach.refl z (by rw [hla]; rfl))
          · rw [entryMarked, lookup_setMarked] at hz
            obtain ⟨o', ho', hm'⟩ := hz
            cases hlz : lookup h z with
            | none => rw [hlz] at ho'; cases ho'
            | some o2 =>
              rw [hlz] at ho'
              simp only [Option.map, if_neg hza] at ho'
              refine Or.inl ⟨o2, hlz, ?_⟩
              injection ho' with he
              rw [← he] at hm'
              exact hm'


/-- Every in-heap field of the object at `x` is marked. -/
def FieldClosedAt (h : Heap) (x : Nat) : Prop :=
  ∀ o, lookup h x = some o → ∀ g ∈ o.fields, (lookup h g).isSome → entryMarked h g

theorem closed_mono {h1 h2 : Heap} (hle : MarksLE h1 h2) {x : Nat}
    (hc : FieldClosedAt h1 x) : FieldClosedAt h2 x := by
  intro o2 ho2 g hg hs
  have hsh := shape_eq_of_marksLE hle
  have hfield := lookup_of_shape_eq hsh x
  rw [ho2] at hfield
  cases hl1 : lookup h1 x with
  | none => rw [hl1] at hfield; cases hfield
  | some o1 =>
    rw [hl1] at hfield
    simp only [Option.map] at hfield
    have hf : o2.fields = o1.fields := by injection hfield
    have hs1 : (lookup h1 g).isSome := by rw [← isSome_of_shape_eq hsh]; exact hs
    exact entryMarked_of_marksLE hle g (hc o1 hl1 g (hf ▸ hg) hs1)

theorem foldl_markRec_post (f : Nat) :
    ∀ (l : List Nat) (hh : Heap), unmarkedCount hh ≤ f →
      ∀ g ∈ l, (lookup hh g).isSome → entryMarked (l.foldl (markRec f) hh) g := by
  intro l
  induction l with
  | nil => intro hh _ g hg; cases hg
  | cons g' gs ihl =>
    intro hh hf g hg hs
    simp only [List.foldl_cons]
    rcases List.mem_cons.mp hg with rfl | hgs
    · have h1 : entryMarked (markRec f hh g) g := markRec_post f hh g hf hs
      have hle : MarksLE (markRec f hh g) (gs.foldl (markRec f) (markRec f hh g)) :=
        foldl_rel marksLE_refl marksLE_trans (marksLE_markRec f) gs _
      exact entryMarked_of_marksLE hle g h1
    · have hle1 : MarksLE hh (markRec f hh g') := marksLE_markRec f hh g'
      refine ihl (markRec f hh g') (le_trans (unmarkedCount_le_of_marksLE hle1) hf) g hgs ?_
      rw [isSome_of_shape_eq (shape_eq_of_marksLE hle1)]
      exact hs

theorem markRec_closed (f : Nat) :
    ∀ (h : Heap) (a : Nat), unmarkedCount h ≤ f →
      ∀ x, entryMarked (markRec f h a) x →
        entryMarked h x ∨ FieldClosedAt (markRec f h a) x := by
  induction f with
  | zero => intro h a _ x hx; exact Or.inl hx
  | succ f ih =>
    intro h a hf x hx
    cases hla : lookup h a with
    | none => rw [markRec, hla] at hx; exact Or.inl hx
    | some o =>
      simp only [markRec, hla] at hx ⊢
      by_cases hm : o.marked
      · rw [if_pos hm] at hx
        exact Or.inl hx
      · rw [if_neg hm] at hx ⊢
        have hm2 : o.marked = false := Bool.eq_false_iff.mpr hm
        have hcnt : unmarkedCount (setMarked h a) ≤ f := by
          have hlt := unmarkedCount_setMarked_lt hla hm2
          omega
        have haux : ∀ (l : List Nat) (hh : Heap), unmarkedCount hh ≤ f →
            ∀ y, entryMarked (l.foldl (markRec f) hh) y →
              entryMarked hh y ∨ FieldClosedAt (l.foldl (markRec f) hh) y := by
          intro l
          induction l with
          | nil => intro hh _ y hy; exact Or.inl hy
          | cons g gs ihl =>
            intro hh hfh y hy
            simp only [List.foldl_cons] at hy ⊢
            have hle1 : MarksLE hh (markRec f hh g) := marksLE_markRec f hh g
            have hcnt1 : unmarkedCount (markRec f hh g) ≤ f :=
              le_trans (unmarkedCount_le_of_marksLE hle1) hfh
            rcases ihl (markRec f hh g) hcnt1 y hy with hmid | hclosed
            · rcases ih hh g hfh y hmid with hold | hc
              · exact Or.inl hold
              · have hle2 : MarksLE (markRec f hh g) (gs.foldl (markRec f) (markRec f hh g)) :=
                  foldl_rel marksLE_refl marksLE_trans (marksLE_markRec f) gs _
                exact Or.inr (closed_mono hle2 hc)
            · exact Or.inr hclosed
        rcases haux o.fields (setMarked h a) hcnt x hx with hsm | hclosed
        · by_cases hxa : x = a
          · subst hxa
            refine Or.inr ?_
            intro o' ho' g hg hs
            have hsh : shape (o.fields.foldl (markRec f) (setMarked h x)) = shape h := by
              have h1 : MarksLE (setMarked h x) (o.fields.foldl (markRec f) (setMarked h x)) :=
                foldl_rel marksLE_refl marksLE_trans (marksLE_markRec f) o.fields _
              rw [shape_eq_of_marksLE h1, shape_eq_of_marksLE (marksLE_setMarked h x)]
            have hfield := lookup_of_shape_eq hsh x
            rw [ho', hla] at hfield
            simp only [Option.map] at hfield
            have hfo : o'.fields = o.fields := by injection hfield
            have hsg : (lookup (setMarked h x) g).isSome := by
              rw [isSome_of_shape_eq (shape_eq_of_marksLE (marksLE_setMarked h x))]
              rw [← isSome_of_shape_eq hsh]
              exact hs
            exact foldl_markRec_post f o.fields (setMarked h x) hcnt g (hfo ▸ hg) hsg
          · left
            rw [entryMarked, lookup_setMarked] at hsm
            obtain ⟨o', ho', hm'⟩ := hsm
            cases hlz : lookup h x with
            | none => rw [hlz] at ho'; cases ho'
            | some o2 =>
              rw [hlz] at ho'
              simp only [Option.map, if_neg hxa] at ho'
              refine ⟨o2, hlz, ?_⟩
              injection ho' with he
              rw [← he] at hm'
              exact hm'
        · exact Or.inr hclosed

theorem mem_of_lookup {h : Heap} {x : Nat} {o : GObj} (hl : lookup h x = some o) :
    (x, o) ∈ h := by
  induction h with
  | nil => cases hl
  | cons p t ih =>
    obtain ⟨pk, pv⟩ := p
    rw [lookup, List.lookup_cons] at hl
    by_cases hxp : x = pk
    · subst hxp
      rw [beq_self_eq_true] at hl
      injection hl with he
      subst he
      exact List.mem_cons_self _ _
    · rw [beq_eq_false_iff_ne.mpr hxp] at hl
      exact List.mem_cons_of_mem _ (ih hl)

theorem no_entryMarked_of_unmarked {h : Heap} (hun : ∀ p ∈ h, p.2.marked = false) :
    ∀ x, ¬entryMarked h x := by
  intro x hx
  obtain ⟨o, ho, hm⟩ := hx
  have := hun (x, o) (mem_of_lookup ho)
  simp at this
  rw [this] at hm
  cases hm

theorem marksLE_markHeap (roots : List Nat) (h : Heap) : MarksLE h (markHeap roots h) :=
  foldl_rel marksLE_refl marksLE_trans (fun h1 r => marksLE_markRec h1.length h1 r) roots h

theorem markHeap_shape (roots : List Nat) (h : Heap) :
    shape (markHeap roots h) = shape h :=
  shape_eq_of_marksLE (marksLE_markHeap roots h)

theorem markHeap_selfClosed (roots : List Nat) (h : Heap)
    (hun : ∀ p ∈ h, p.2.marked = false) :
    ∀ x, entryMarked (markHeap roots h) x → FieldClosedAt (markHeap roots h) x := by
  rw [markHeap]
  have haux : ∀ (l : List Nat) (hh : Heap),
      (∀ x, entryMarked hh x → FieldClosedAt hh x) →
      ∀ x, entryMarked (l.foldl (fun h1 r => markRec h1.length h1 r) hh) x →
        FieldClosedAt (l.foldl (fun h1 r => markRec h1.length h1 r) hh) x := by
    intro l
    induction l with
    | nil => intro hh hsc; exact hsc
    | cons r rs ihl =>
      intro hh hsc
      simp only [List.foldl_cons]
      refine ihl (markRec hh.length hh r) ?_
      intro x hx
      have hcnt : unmarkedCount hh ≤ hh.length := List.length_filter_le _ _
      rcases markRec_closed hh.length hh r hcnt x hx with hold | hc
      · exact closed_mono (marksLE_markRec hh.length hh r) (hsc x hold)
      · exact hc
  exact haux roots h (fun x hx => absurd hx (no_entryMarked_of_unmarked hun x))

theorem markHeap_roots_marked (roots : List Nat) (h : Heap) :
    ∀ r ∈ roots, (lookup h r).isSome → entryMarked (markHeap roots h) r := by
  rw [markHeap]
  have haux : ∀ (l : List Nat) (hh : Heap), ∀ r ∈ l, (lookup hh r).isSome →
      entryMarked (l.foldl (fun h1 r => markRec h1.length h1 r) hh) r := by
    intro l
    induction l with
    | nil => intro hh r hr; cases hr
    | cons r' rs ihl =>
      intro hh r hr hs
      simp only [List.foldl_cons]
      rcases List.mem_cons.mp hr with rfl | hrs
      · have hcnt : unmarkedCount hh ≤ hh.length := List.length_filter_le _ _
        have h1 : entryMarked (markRec hh.length hh r) r := markRec_post _ hh r hcnt hs
        have hle : MarksLE (markRec hh.length hh r)
            (rs.foldl (fun h1 r => markRec h1.length h1 r) (markRec hh.length hh r)) :=
          foldl_rel marksLE_refl marksLE_trans (fun h1 r => marksLE_markRec h1.length h1 r) rs _
        exact entryMarked_of_marksLE hle r h1
      · have hle1 : MarksLE hh (markRec hh.length hh r') := marksLE_markRec _ hh r'
        refine ihl (markRec hh.length hh r') r hrs ?_
        rw [isSome_of_shape_eq (shape_eq_of_marksLE hle1)]
        exact hs
  intro r hr hs
  exact haux roots h r hr hs

theorem markHeap_complete (roots : List Nat) (h : Heap)
    (hun : ∀ p ∈ h, p.2.marked = false) :
    ∀ r ∈ roots, ∀ x, Reach h r x → entryMarked (markHeap roots h) x := by
  intro r hr x hrx
  induction hrx with
  | refl hb => exact markHeap_roots_marked roots h r hr hb
  | @tail z g o hrz ho hg hs ih =>
    have hsc := markHeap_selfClosed roots h hun z ih
    have hsh := markHeap_shape roots h
    have hfield := lookup_of_shape_eq hsh z
    rw [ho] at hfield
    cases hlz : lookup (markHeap roots h) z with
    | none => rw [hlz] at hfield; cases hfield
    | some o2 =>
      rw [hlz] at hfield
      simp only [Option.map] at hfield
      have hfo : o2.fields = o.fields := by injection hfield
      exact hsc o2 hlz g (by rw [hfo]; exact hg) (by rw [isSome_of_shape_eq hsh]; exact hs)

theorem markHeap_sound (roots : List Nat) (h : Heap)
    (hun : ∀ p ∈ h, p.2.marked = false) :
    ∀ x, entryMarked (markHeap roots h) x → ∃ r ∈ roots, Reach h r x := by
  rw [markHeap]
  have haux : ∀ (l : List Nat), (∀ r ∈ l, r ∈ roots) → ∀ (hh : Heap), shape hh = shape h →
      (∀ y, entryMarked hh y → ∃ r ∈ roots, Reach h r y) →
      ∀ y, entryMarked (l.foldl (fun h1 r => markRec h1.length h1 r) hh) y →
        ∃ r ∈ roots, Reach h r y := by
    intro l
    induction l with
    | nil => intro _ hh _ hinv y hy; exact hinv y hy
    | cons r rs ihl =>
      intro hsub hh hsh hinv y hy
      simp only [List.foldl_cons] at hy
      refine ihl (fun z hz => hsub z (List.mem_cons_of_mem _ hz)) (markRec hh.length hh r)
        ?_ ?_ y hy
      · rw [markRec_shape, hsh]
      · intro z hz
        rcases markRec_sound hh.length hh r z hz with hold | hreach
        · exact hinv z hold
        · exact ⟨r, hsub r (List.mem_cons_self r rs), reach_of_shape_eq hsh hreach⟩
  exact haux roots (fun z hz => hz) h rfl
    (fun y hy => absurd hy (no_entryMarked_of_unmarked hun y))


/-! ### C8: sweep lemmas and the idempotence theorem -/

theorem sweep_cons (p : Nat × GObj) (t : Heap) :
    sweepList (p :: t) =
      if p.2.marked then (p.1, { p.2 with marked := false }) :: sweepList t
      else sweepList t := rfl

theorem sweep_unmarked (h : Heap) : ∀ p ∈ sweepList h, p.2.marked = false := by
  induction h with
  | nil => intro p hp; cases hp
  | cons q t ih =>
    intro p hp
    rw [sweep_cons] at hp
    by_cases hq : q.2.marked
    · rw [if_pos hq] at hp
      rcases List.mem_cons.mp hp with rfl | hp2
      · rfl
      · exact ih p hp2
    · rw [if_neg hq] at hp
      exact ih p hp

theorem keys_sweep_sublist (h : Heap) : (keys (sweepList h)).Sublist (keys h) := by
  induction h with
  | nil => exact List.Sublist.refl _
  | cons q t ih =>
    rw [sweep_cons]
    by_cases hq : q.2.marked
    · rw [if_pos hq]
      exact List.Sublist.cons₂ _ ih
    · rw [if_neg hq]
      exact List.Sublist.cons _ ih

theorem lookup_none_of_not_mem_keys {h : Heap} {x : Nat} (hx : x ∉ keys h) :
    lookup h x = none := by
  induction h with
  | nil => rfl
  | cons p t ih =>
    rw [lookup, List.lookup_cons]
    have hxp : x ≠ p.1 := fun hc => hx (by rw [hc]; exact List.mem_cons_self _ _)
    rw [beq_eq_false_iff_ne.mpr hxp]
    exact ih (fun hc => hx (List.mem_cons_of_mem _ hc))

theorem mem_keys_of_lookup {h : Heap} {x : Nat} {o : GObj} (hl : lookup h x = some o) :
    x ∈ keys h := by
  have := mem_of_lookup hl
  exact List.mem_map_of_mem Prod.fst this

theorem isSome_of_mem_keys {h : Heap} {x : Nat} (hx : x ∈ keys h) :
    (lookup h x).isSome := by
  induction h with
  | nil => cases hx
  | cons p t ih =>
    rw [lookup, List.lookup_cons]
    by_cases hxp : x = p.1
    · rw [beq_iff_eq.mpr hxp]; rfl
    · rw [beq_eq_false_iff_ne.mpr hxp]
      rcases List.mem_cons.mp hx with he | hm
      · exact absurd he hxp
      · exact ih hm

theorem lookup_cons_self {p : Nat × GObj} {t : Heap} : lookup (p :: t) p.1 = some p.2 := by
  rw [lookup, List.lookup_cons, beq_self_eq_true]

theorem lookup_cons_ne {p : Nat × GObj} {t : Heap} {x : Nat} (hx : (x == p.1) = false) :
    lookup (p :: t) x = lookup t x := by
  rw [lookup, List.lookup_cons, hx, lookup]

theorem lookup_sweep {h : Heap} (hnd : (keys h).Nodup) (x : Nat) :
    lookup (sweepList h) x =
      match lookup h x with
      | some o => if o.marked then some { o with marked := false } else none
      | none => none := by
  induction h with
  | nil => rfl
  | cons p t ih =>
    rw [keys, List.map_cons, List.nodup_cons] at hnd
    obtain ⟨hp, hndt⟩ := hnd
    rw [sweep_cons]
    by_cases hxp : x = p.1
    · by_cases hm : p.2.marked
      · rw [if_pos hm]
        have h1 : lookup ((p.1, { p.2 with marked := false }) :: sweepList t) x
            = some { p.2 with marked := false } := by
          rw [hxp]; exact lookup_cons_self
        rw [h1, hxp, lookup_cons_self]
        simp [hm]
      · rw [if_neg hm]
        have hnot : x ∉ keys (sweepList t) :=
          fun hc => hp (hxp ▸ (keys_sweep_sublist t).mem hc)
        rw [lookup_none_of_not_mem_keys hnot, hxp, lookup_cons_self]
        simp [hm]
    · have hb := beq_eq_false_iff_ne.mpr hxp
      by_cases hm : p.2.marked
      · rw [if_pos hm,
          lookup_cons_ne (p := (p.1, { p.2 with marked := false })) hb,
          lookup_cons_ne hb]
        exact ih hndt
      · rw [if_neg hm, lookup_cons_ne hb]
        exact ih hndt

theorem keys_eq_of_shape {h h' : Heap} (hs : shape h' = shape h) : keys h' = keys h := by
  have h1 : keys h' = (shape h').map Prod.fst := by
    rw [keys, shape, List.map_map]; rfl
  have h2 : keys h = (shape h).map Prod.fst := by
    rw [keys, shape, List.map_map]; rfl
  rw [h1, h2, hs]

theorem all_entries_marked {hh : Heap} (hnd : (keys hh).Nodup)
    (hx : ∀ x ∈ keys hh, entryMarked hh x) : ∀ p ∈ hh, p.2.marked = true := by
  induction hh with
  | nil => intro p hp; cases hp
  | cons q t ih =>
    rw [keys, List.map_cons, List.nodup_cons] at hnd
    obtain ⟨hq, hndt⟩ := hnd
    intro p hp
    rcases List.mem_cons.mp hp with rfl | hpt
    · obtain ⟨o, ho, hm⟩ := hx p.1 (List.mem_cons_self _ _)
      rw [lookup, List.lookup_cons, beq_self_eq_true] at ho
      injection ho with he
      rw [← he] at hm
      exact hm
    · refine ih hndt ?_ p hpt
      intro y hy
      have hyq : y ≠ q.1 := fun hc => hq (hc ▸ hy)
      obtain ⟨o, ho, hm⟩ := hx y (List.mem_cons_of_mem _ hy)
      rw [lookup, List.lookup_cons, beq_eq_false_iff_ne.mpr hyq] at ho
      exact ⟨o, ho, hm⟩

theorem sweep_of_all_marked {hh : Heap} (hm : ∀ p ∈ hh, p.2.marked = true) :
    sweepList hh = hh.map (fun p => (p.1, { p.2 with marked := false })) := by
  induction hh with
  | nil => rfl
  | cons q t ih =>
    rw [sweep_cons, if_pos (hm q (List.mem_cons_self _ _)), List.map_cons,
      ih (fun p hp => hm p (List.mem_cons_of_mem _ hp))]

theorem map_clear_of_shape {hh h1 : Heap} (hs : shape hh = shape h1)
    (hun : ∀ p ∈ h1, p.2.marked = false) :
    hh.map (fun p => (p.1, { p.2 with marked := false })) = h1 := by
  induction h1 generalizing hh with
  | nil =>
    cases hh with
    | nil => rfl
    | cons q t => simp [shape] at hs
  | cons q t ih =>
    cases hh with
    | nil => simp [shape] at hs
    | cons p s =>
      have hqm : q.2.marked = false := hun q (List.mem_cons_self _ _)
      obtain ⟨pk, pv⟩ := p
      obtain ⟨qk, qv⟩ := q
      cases pv with
      | mk pm pf =>
        cases qv with
        | mk qm qf =>
          simp only [shape, List.map_cons, List.cons_eq_cons] at hs
          obtain ⟨hhead, hrest⟩ := hs
          injection hhead with hk hf
          simp only [] at hqm hk hf
          subst hk
          subst hf
          subst hqm
          rw [List.map_cons, ih hrest (fun r hr => hun r (List.mem_cons_of_mem _ hr))]

/-- C8: starting from a heap whose marks are all clear (the invariant
outside a collection) with distinct object addresses, a second `collect`
with the same roots and no intervening allocations or mutations keeps the
exact object list and count of the first (it frees nothing); and after any
`collect` every surviving object's mark flag is false. -/
theorem C8_collect_idempotent (roots : List Nat) (g : GCHeap)
    (hnd : (keys g.objects).Nodup)
    (hun : ∀ p ∈ g.objects, p.2.marked = false) :
    (collect roots (collect roots g)).objects = (collect roots g).objects ∧
    (collect roots (collect roots g)).object_count = (collect roots g).object_count ∧
    (∀ (g2 : GCHeap) (roots2 : List Nat), ∀ p ∈ (collect roots2 g2).objects,
      p.2.marked = false) := by
  have hthird : ∀ (g2 : GCHeap) (roots2 : List Nat), ∀ p ∈ (collect roots2 g2).objects,
      p.2.marked = false := by
    intro g2 roots2 p hp
    exact sweep_unmarked _ p hp
  set h := g.objects with hh
  have hshH : shape (markHeap roots h) = shape h := markHeap_shape roots h
  have hkeysH : keys (markHeap roots h) = keys h := keys_eq_of_shape hshH
  have hndH : (keys (markHeap roots h)).Nodup := by rw [hkeysH]; exact hnd
  have hobj1 : (collect roots g).objects = sweepList (markHeap roots h) := rfl
  set h1 := sweepList (markHeap roots h) with hh1
  have hun1 : ∀ p ∈ h1, p.2.marked = false := sweep_unmarked _
  have hnd1 : (keys h1).Nodup := (keys_sweep_sublist _).nodup hndH
  -- every address in h1 is marked again by the second mark phase
  have hmarked2 : ∀ x ∈ keys h1, entryMarked (markHeap roots h1) x := by
    intro x hx
    have hsx := isSome_of_mem_keys hx
    cases hl1 : lookup h1 x with
    | none => rw [hl1] at hsx; cases hsx
    | some o1 =>
      have hswp := lookup_sweep hndH x
      rw [hl1] at hswp
      cases hlH : lookup (markHeap roots h) x with
      | none => rw [hlH] at hswp; cases hswp
      | some oH =>
        rw [hlH] at hswp
        by_cases hmH : oH.marked
        · have hEM : entryMarked (markHeap roots h) x := ⟨oH, hlH, hmH⟩
          obtain ⟨r, hr, hreach⟩ := markHeap_sound roots h hun x hEM
          -- lift the reachability path into the swept heap
          have hlift : ∀ y, Reach h r y → Reach h1 r y := by
            intro y hry
            induction hry with
            | refl hb =>
              have hEMb : entryMarked (markHeap roots h) r :=
                markHeap_complete roots h hun r hr r (Reach.refl r hb)
              obtain ⟨ob, hob, hobm⟩ := hEMb
              have hswb := lookup_sweep hndH r
              rw [hob] at hswb
              simp only [hobm, if_true] at hswb
              exact Reach.refl r (by rw [hswb]; rfl)
            | @tail z gg oz hrz hoz hgz hsz ih =>
              have hEMz : entryMarked (markHeap roots h) z :=
                markHeap_complete roots h hun r hr z hrz
              obtain ⟨ozH, hozH, hozm⟩ := hEMz
              have hfieldz := lookup_of_shape_eq hshH z
              rw [hozH, hoz] at hfieldz
              simp only [Option.map] at hfieldz
              have hfz : ozH.fields = oz.fields := by injection hfieldz
              have hswz := lookup_sweep hndH z
              rw [hozH] at hswz
              simp only [hozm, if_true] at hswz
              have hreachg : Reach h r gg := Reach.tail hrz hoz hgz hsz
              have hEMg : entryMarked (markHeap roots h) gg :=
                markHeap_complete roots h hun r hr gg hreachg
              obtain ⟨og, hog, hogm⟩ := hEMg
              have hswg := lookup_sweep hndH gg
              rw [hog] at hswg
              simp only [hogm, if_true] at hswg
              refine Reach.tail ih hswz ?_ (by rw [hswg]; rfl)
              show gg ∈ ({ ozH with marked := false } : GObj).fields
              simp only []
              rw [hfz]
              exact hgz
          exact markHeap_complete roots h1 hun1 r hr x (hlift x hreach)
        · simp [hmH] at hswp
  -- hence the second sweep keeps everything
  have hshH1 : shape (markHeap roots h1) = shape h1 := markHeap_shape roots h1
  have hndH1 : (keys (markHeap roots h1)).Nodup := by
    rw [keys_eq_of_shape hshH1]; exact hnd1
  have hallm : ∀ p ∈ markHeap roots h1, p.2.marked = true := by
    refine all_entries_marked hndH1 ?_
    intro x hx
    rw [keys_eq_of_shape hshH1] at hx
    exact hmarked2 x hx
  have hsw2 : sweepList (markHeap roots h1) = h1 := by
    rw [sweep_of_all_marked hallm]
    exact map_clear_of_shape hshH1 hun1
  refine ⟨?_, ?_, hthird⟩
  · show sweepList (markHeap roots (collect roots g).objects) = (collect roots g).objects
    rw [hobj1]
    exact hsw2
  · show (sweepList (markHeap roots (collect roots g).objects)).length
      = (collect roots g).object_count
    rw [hobj1, hsw2]
    rfl


theorem C8_collect_idempotent_witness :
    ((keys [(0, (⟨false, [1]⟩ : GObj)), (1, ⟨false, []⟩), (2, ⟨false, []⟩)]).Nodup ∧
      (∀ p ∈ ([(0, (⟨false, [1]⟩ : GObj)), (1, ⟨false, []⟩), (2, ⟨false, []⟩)] : Heap),
        p.2.marked = false)) ∧
    ((collect [0] (collect [0]
        ⟨[(0, ⟨false, [1]⟩), (1, ⟨false, []⟩), (2, ⟨false, []⟩)], 3, 8⟩)).objects
      = (collect [0]
        ⟨[(0, ⟨false, [1]⟩), (1, ⟨false, []⟩), (2, ⟨false, []⟩)], 3, 8⟩).objects ∧
     (collect [0] (collect [0]
        ⟨[(0, ⟨false, [1]⟩), (1, ⟨false, []⟩), (2, ⟨false, []⟩)], 3, 8⟩)).object_count
      = (collect [0]
        ⟨[(0, ⟨false, [1]⟩), (1, ⟨false, []⟩), (2, ⟨false, []⟩)], 3, 8⟩).object_count ∧
     (∀ (g2 : GCHeap) (roots2 : List Nat), ∀ p ∈ (collect roots2 g2).objects,
        p.2.marked = false)) :=
  ⟨⟨by decide, by decide⟩,
    C8_collect_idempotent [0]
      ⟨[(0, ⟨false, [1]⟩), (1, ⟨false, []⟩), (2, ⟨false, []⟩)], 3, 8⟩
      (by decide) (by decide)⟩

end PebblGC
